import Mathlib

/-!
Verification development for the `chatti` terminal chat client.

The definitions below are a shallow embedding of the Rust sources:
  * `src/ui/state.rs`      — conversation state and its mutators
  * `src/ui/input_handler.rs` — key handling for Normal/Editing modes
  * `src/ui/chat.rs`       — the Escape branches of `Interface::run` / `Interface::update`
  * `src/main.rs`          — the NDJSON streaming ingestion loop and `process_response`
  * `src/ui/markdown_renderer.rs` — the markdown-to-terminal-lines renderer

Rust `String`s are modelled as `List Char` (the sources only ever push/pop
whole `char`s and compare whole strings, and the byte-level UTF-8 framing of
the streaming loop is newline-delimited, with `'\n'` a single-byte code
point).  External crates (ratatui, serde_json, pulldown-cmark, syntect,
unicode-width) appear only through the small surfaces the sources use; each
such surface is modelled where it is introduced.
-/

namespace Chatti

/-- Rust strings, modelled as lists of unicode code points. -/
abbrev Str := List Char

/-! ### Conversation state (src/ui/state.rs) -/

/-- Mirrors `enum InputMode` in src/ui/state.rs. -/
inductive InputMode
  | Normal
  | Editing
  | Waiting
deriving DecidableEq

/-- Mirrors `enum Action` in src/ui/state.rs. -/
inductive Action
  | CancelRequest
deriving DecidableEq

/-- Mirrors `struct State` in src/ui/state.rs.  The external ratatui
`ListState` is modelled by its selected index (`list_selected`), and each
ratatui `ScrollbarState` by its position counter; the `Spinner` by its
frame counter.  Field order follows the source. -/
structure State where
  current_response : Str
  horizontal_scroll_state : Nat
  horizontal_scroll : Nat
  input : Str
  input_mode : InputMode
  input_width : Nat
  list_selected : Option Nat
  messages : List (Str × Str)
  show_toggle : Bool
  spinner_current : Nat
  vertical_scroll_state : Nat
  quit : Bool
deriving DecidableEq

/-- Mirrors `State::new`: default fields, with the list selection set to 0. -/
def State.new : State :=
  { current_response := []
    horizontal_scroll_state := 0
    horizontal_scroll := 0
    input := []
    input_mode := InputMode.Normal
    input_width := 0
    list_selected := some 0
    messages := []
    show_toggle := false
    spinner_current := 0
    vertical_scroll_state := 0
    quit := false }

/-- Mirrors `State::scroll_up`: move the selection up by one, saturating at 0. -/
def State.scroll_up (s : State) : State :=
  let current := s.list_selected.getD 0
  let next := current - 1
  { s with list_selected := some next, vertical_scroll_state := next }

/-- Mirrors `State::scroll_down`: move the selection down by one, clamped to
`messages.len() - 1` (saturating subtraction, as in the source). -/
def State.scroll_down (s : State) : State :=
  let current := s.list_selected.getD 0
  let next := min (current + 1) (s.messages.length - 1)
  { s with list_selected := some next, vertical_scroll_state := next }

/-- Mirrors `State::update_response`: when waiting, extend the accumulator,
then write it into the trailing assistant message (creating one if the last
message is missing or has a different role), and follow the bottom of the
list if the selection was already there. -/
def State.update_response (s : State) (new_content : Str) : State :=
  if s.input_mode = InputMode.Waiting then
    let cur := s.current_response ++ new_content
    let msgs :=
      match s.messages.getLast? with
      | some (role, _) =>
        if role = "assistant".toList then
          s.messages.dropLast ++ [("assistant".toList, cur)]
        else
          s.messages ++ [("assistant".toList, cur)]
      | none => s.messages ++ [("assistant".toList, cur)]
    let is_at_bottom := s.list_selected = some (msgs.length - 1)
    if is_at_bottom then
      { s with current_response := cur, messages := msgs,
               list_selected := some (msgs.length - 1),
               vertical_scroll_state := msgs.length - 1 }
    else
      { s with current_response := cur, messages := msgs }
  else s

/-- Mirrors `State::add_response`: when waiting, pop the trailing message and
then also pop a `("system", "Generating...")` entry if it is now last; push
the final assistant message; reset mode, accumulator, selection and the
horizontal scroll.  A `Vec::pop` on an empty vector is a no-op, matching
`List.dropLast []`. -/
def State.add_response (s : State) (response : Str) : State :=
  let msgs1 :=
    if s.input_mode = InputMode.Waiting then
      let m1 := s.messages.dropLast
      match m1.getLast? with
      | some (role, content) =>
        if role = "system".toList ∧ content = "Generating...".toList then
          m1.dropLast
        else m1
      | none => m1
    else s.messages
  let msgs := msgs1 ++ [("assistant".toList, response)]
  { s with messages := msgs
           input_mode := InputMode.Normal
           current_response := []
           list_selected := some (msgs.length - 1)
           vertical_scroll_state := msgs.length - 1
           horizontal_scroll := 0
           horizontal_scroll_state := 0 }

/-- Mirrors `State::start_new_response`: enter Waiting, clear the
accumulator, and push an empty assistant message. -/
def State.start_new_response (s : State) : State :=
  { s with input_mode := InputMode.Waiting
           current_response := []
           messages := s.messages ++ [("assistant".toList, [])] }

/-! ### Input handling (src/ui/input_handler.rs) -/

/-- Mirrors crossterm `KeyCode`, restricted to the variants the handlers
match on; every other key code is `other` (the wildcard arms). -/
inductive Key
  | enter
  | backspace
  | esc
  | left
  | right
  | up
  | down
  | char (c : Char)
  | other
deriving DecidableEq

/-- Mirrors `InputHandler::handle_normal_mode`. -/
def handle_normal_mode (s : State) (key : Key) : State :=
  match key with
  | Key.char c =>
    if c = 'q' then { s with quit := true }
    else if c = '?' then { s with show_toggle := ¬ s.show_toggle }
    else if c = 'e' then { s with input_mode := InputMode.Editing }
    else s
  | Key.up => s.scroll_up
  | Key.down => s.scroll_down
  | _ => s

/-- Mirrors `InputHandler::handle_editing_mode`.  The Rust function returns
`Result<Option<String>>` but never errors; the model returns the new state
plus the optionally emitted message. -/
def handle_editing_mode (s : State) (key : Key) : State × Option Str :=
  match key with
  | Key.enter =>
    let message := s.input
    ({ s with input := []
              messages := s.messages ++
                [("user".toList, message), ("system".toList, "Generating...".toList)]
              input_mode := InputMode.Waiting
              horizontal_scroll := 0
              horizontal_scroll_state := 0 },
     some message)
  | Key.char c => ({ s with input := s.input ++ [c] }, none)
  | Key.backspace => ({ s with input := s.input.dropLast }, none)
  | Key.esc => ({ s with input_mode := InputMode.Normal }, none)
  | Key.left => ({ s with horizontal_scroll := s.horizontal_scroll - 1 }, none)
  | Key.right =>
    let max_scroll := s.input.length - s.input_width
    ({ s with horizontal_scroll := min (s.horizontal_scroll + 1) max_scroll }, none)
  | _ => (s, none)

/-! ### Interface Escape branches (src/ui/chat.rs) -/

/-- Mirrors the body of `Interface::update` once the 1 ms poll has read a
key: `escPressed` says whether that key was Escape.  When Escape is read
while waiting, the mode is set to Normal and `CancelRequest` is returned;
nothing else changes state. -/
def Interface.update (escPressed : Bool) (s : State) : State × Option Action :=
  if escPressed ∧ s.input_mode = InputMode.Waiting then
    ({ s with input_mode := InputMode.Normal }, some Action.CancelRequest)
  else (s, none)

/-- Mirrors the Waiting branch of `Interface::run` when the poll delivers an
Escape key press: set the mode to Normal and pop the trailing message. -/
def Interface.runEsc (s : State) : State :=
  if s.input_mode = InputMode.Waiting then
    { s with input_mode := InputMode.Normal, messages := s.messages.dropLast }
  else s

/-! ### Response processing loop (src/main.rs, `process_response`)

The `tokio::select!` race between `rx.recv()` and the 100 ms timer is
modelled by an externally supplied event trace: each iteration of the loop
observes one `REvent`.  A `delta`/`tick` event records whether the
subsequent `Interface::update` poll read an Escape key press. -/

/-- One observed iteration of the `process_response` select loop. -/
inductive REvent
  | delta (content : Str) (escPressed : Bool)
  | errEvent (msg : Str)
  | closed
  | tick (escPressed : Bool)
deriving DecidableEq

/-- Mirrors the error message built in `process_response` for a received
`Err`; the log-file path comes from the external logging module and is
modelled as a fixed placeholder. -/
def errorText (e : Str) : Str :=
  "Error: ".toList ++ e ++
    ", For more details, please check the log file at: <log>".toList

/-- Mirrors the loop body of `process_response`, folding over the observed
event trace.  Cancellation, a received error, and channel closure all leave
the loop, ignoring the rest of the trace; an exhausted trace models a turn
still in flight. -/
def processResponseGo (s : State) (full : Str) : List REvent → State
  | [] => s
  | REvent.delta c esc :: rest =>
    let s1 := s.update_response c
    match Interface.update esc s1 with
    | (s2, some Action.CancelRequest) => s2.add_response "Request cancelled".toList
    | (s2, none) => processResponseGo s2 (full ++ c) rest
  | REvent.errEvent e :: _ => s.add_response (errorText e)
  | REvent.closed :: _ => if full ≠ [] then s.add_response full else s
  | REvent.tick esc :: rest =>
    match Interface.update esc s with
    | (s2, some Action.CancelRequest) => s2.add_response "Request cancelled".toList
    | (s2, none) => processResponseGo s2 full rest

/-- Mirrors `process_response` from its entry: empty accumulated response. -/
def processResponse (s : State) (tr : List REvent) : State :=
  processResponseGo s [] tr

/-! ### Markdown renderer (src/ui/markdown_renderer.rs)

The external pulldown-cmark parser produces an event stream; the renderer
consumes it.  The embedding therefore works on event lists (`MdEvent`
mirrors exactly the `MarkdownEvent` constructors the renderer matches on;
`otherEvent` is its wildcard arm).  The external ratatui `Style` is
modelled by the two modifiers the renderer uses plus a foreground color. -/

/-- Models the ratatui colors used by the renderer. -/
inductive Color
  | Yellow
  | Rgb (r g b : Nat)
deriving DecidableEq

/-- Models ratatui `Style` restricted to the decorations the renderer uses:
`add_modifier(BOLD)` / `add_modifier(ITALIC)` become flags, `fg` a color. -/
structure Style where
  fg : Option Color := none
  bold : Bool := false
  italic : Bool := false
deriving DecidableEq

instance : Inhabited Style := ⟨{}⟩

/-- Models `style.add_modifier(Modifier::BOLD)`: a union, not an overwrite. -/
def Style.addBold (st : Style) : Style := { st with bold := true }

/-- Models `style.remove_modifier(Modifier::BOLD)`. -/
def Style.removeBold (st : Style) : Style := { st with bold := false }

/-- Models `style.add_modifier(Modifier::ITALIC)`: a union, not an overwrite. -/
def Style.addItalic (st : Style) : Style := { st with italic := true }

/-- Models `style.remove_modifier(Modifier::ITALIC)`. -/
def Style.removeItalic (st : Style) : Style := { st with italic := false }

/-- Models ratatui `Span`: a run of text with one style. -/
structure Span where
  content : Str
  style : Style
deriving DecidableEq

/-- Models `Span::raw`: unstyled text. -/
def Span.raw (s : Str) : Span := ⟨s, {}⟩

/-- Models ratatui `Line`: a sequence of spans. -/
structure Line where
  spans : List Span
deriving DecidableEq

instance : Inhabited Line := ⟨⟨[]⟩⟩

/-- Models `unicode_width`'s `UnicodeWidthChar::width_cjk` for the code
point ranges exercised here: control characters have no width, the wide
East-Asian blocks (Hangul Jamo, CJK, Hangul syllables, fullwidth forms)
count 2 columns, everything else 1.  The source measures spans with
`UnicodeWidthStr::width` and splits with `width_cjk`; the two differ only
on East-Asian-ambiguous code points, which this table classifies as
narrow, so one function models both. -/
def width_cjk (c : Char) : Option Nat :=
  if c.toNat < 0x20 then none
  else if (0x1100 ≤ c.toNat ∧ c.toNat ≤ 0x115F) ∨ (0x2E80 ≤ c.toNat ∧ c.toNat ≤ 0x303E)
      ∨ (0x3041 ≤ c.toNat ∧ c.toNat ≤ 0x33FF) ∨ (0x3400 ≤ c.toNat ∧ c.toNat ≤ 0x4DBF)
      ∨ (0x4E00 ≤ c.toNat ∧ c.toNat ≤ 0x9FFF) ∨ (0xAC00 ≤ c.toNat ∧ c.toNat ≤ 0xD7A3)
      ∨ (0xF900 ≤ c.toNat ∧ c.toNat ≤ 0xFAFF) ∨ (0xFF00 ≤ c.toNat ∧ c.toNat ≤ 0xFF60)
    then some 2
  else some 1

/-- Mirrors `c.width_cjk().unwrap_or(1)` from `split_at_width`. -/
def charWidth (c : Char) : Nat := (width_cjk c).getD 1

/-- Display width of a run of text: sum of its characters' widths. -/
def strWidth (s : Str) : Nat := (s.map charWidth).sum

/-- Display width of a span sequence, as summed in `add_text_to_line`. -/
def spansWidth (spans : List Span) : Nat :=
  (spans.map (fun sp => strWidth sp.content)).sum

/-- Display width of a rendered line. -/
def lineWidth (l : Line) : Nat := spansWidth l.spans

/-- Models Rust `str::trim_end`: remove trailing whitespace. -/
def trimEnd (s : Str) : Str := (s.reverse.dropWhile Char.isWhitespace).reverse

/-- Mirrors the markdown events matched in `render_markdown`: `Start`/`End`
pairs become start/end constructors, `otherEvent` is the wildcard arm
(headings and anything else the renderer ignores). -/
inductive MdEvent
  | text (t : Str)
  | softBreak
  | hardBreak
  | listStart
  | listEnd
  | itemStart
  | itemEnd
  | emphStart
  | emphEnd
  | strongStart
  | strongEnd
  | codeSpan (t : Str)
  | paraStart
  | paraEnd
  | codeBlockStart (lang : Str)
  | codeBlockEnd
  | otherEvent
deriving DecidableEq

/-- Mirrors `flush_line`: a non-empty current line is moved into the output
buffer; the current line is left empty either way. -/
def flush_line (lines : List Line) (current : List Span) : List Line × List Span :=
  if current = [] then (lines, []) else (lines ++ [⟨current⟩], [])

/-- Mirrors `split_at_width`: greedily take characters while the running
display width stays within the budget; never splits mid code point. -/
def split_at_width : Str → Nat → Str × Str
  | [], _ => ([], [])
  | c :: cs, w =>
    if w < charWidth c then ([], c :: cs)
    else
      let p := split_at_width cs (w - charWidth c)
      (c :: p.1, p.2)

/-- Mirrors `current_line.last().unwrap().content.ends_with(' ')` guarded
by the non-emptiness check. -/
def endsWithSpace (current : List Span) : Bool :=
  match current.getLast? with
  | some sp => sp.content.getLast? == some ' '
  | none => false

/-- Mirrors the `while !remaining_text.is_empty()` loop of
`add_text_to_line`.  The Rust loop does not terminate on every input (for
example zero available width, or a pending wide character with one free
column): `fuel` bounds the number of iterations, and every theorem below
either holds for all fuel values or fixes a fuel large enough for its
concrete input. -/
def addTextLoop (width listLevel : Nat) (style : Style) :
    Nat → List Line × List Span → Str → List Line × List Span
  | _, acc, [] => acc
  | 0, acc, _ :: _ => acc
  | fuel + 1, acc, remaining@(_ :: _) =>
    let indent := if 0 < listLevel then 2 * listLevel else 0
    let available_width := width - indent
    let current_line_width := spansWidth acc.2
    let space_left := available_width - current_line_width
    if space_left = 0 then
      let fl := flush_line acc.1 acc.2
      let cur := if 0 < listLevel then fl.2 ++ [Span.raw (List.replicate indent ' ')] else fl.2
      addTextLoop width listLevel style fuel (fl.1, cur) remaining
    else
      let p := split_at_width remaining space_left
      let pushed :=
        if p.1 = [] then acc
        else
          let cur1 :=
            if acc.2 ≠ [] ∧ ¬ endsWithSpace acc.2 then acc.2 ++ [Span.raw [' ']] else acc.2
          (acc.1, cur1 ++ [Span.mk (trimEnd p.1) style])
      if p.2 = [] then pushed
      else
        let fl := flush_line pushed.1 pushed.2
        let cur := if 0 < listLevel then fl.2 ++ [Span.raw (List.replicate indent ' ')] else fl.2
        addTextLoop width listLevel style fuel (fl.1, cur) p.2

/-- Mirrors `add_text_to_line`: the initial indent span (inside a list with
an empty current line) followed by the wrap loop. -/
def add_text_to_line (fuel width listLevel : Nat) (style : Style)
    (lines : List Line) (current : List Span) (text : Str) : List Line × List Span :=
  let indent := if 0 < listLevel then 2 * listLevel else 0
  let cur0 :=
    if current = [] ∧ 0 < listLevel then [Span.raw (List.replicate indent ' ')] else current
  addTextLoop width listLevel style fuel (lines, cur0) text

/-- Models syntect's `LinesWithEndings`: split into lines, each keeping its
terminating newline; a final fragment without a newline is kept too. -/
def linesWithEndings : Str → List Str
  | [] => []
  | c :: cs =>
    if c = '\n' then ['\n'] :: linesWithEndings cs
    else
      match linesWithEndings cs with
      | [] => [[c]]
      | l :: ls => (c :: l) :: ls

/-- Models `highlight_code`: the external syntect highlighter produces one
output line per source line (original line breaks preserved verbatim, no
re-wrapping), each token colored from the fixed theme.  The per-token
colors are external to this embedding; each line is modelled as a single
span carrying a theme foreground color.  The declared language only
selects the syntax definition, so it does not appear in the model's
output shape. -/
def highlight_code (code : Str) (lang : Str) : List Line :=
  let _ := lang
  (linesWithEndings code).map
    (fun l => ⟨[Span.mk l { fg := some (Color.Rgb 192 197 206) }]⟩)

/-- Mirrors the mutable locals of `render_markdown`'s event loop. -/
structure RState where
  lines : List Line
  current_line : List Span
  in_code_block : Bool
  code_block_lang : Str
  code_block_content : Str
  list_level : Nat
  current_style : Style
deriving DecidableEq

/-- Initial renderer state: everything empty, default style. -/
def RState.init : RState := ⟨[], [], false, [], [], 0, {}⟩

/-- Mirrors one arm of the `for event in parser` match in `render_markdown`. -/
def processEvent (fuel width : Nat) (σ : RState) (e : MdEvent) : RState :=
  match e with
  | MdEvent.codeBlockStart lang =>
    let fl := flush_line σ.lines σ.current_line
    { σ with lines := fl.1, current_line := fl.2, in_code_block := true,
             code_block_lang := lang }
  | MdEvent.codeBlockEnd =>
    { σ with in_code_block := false,
             lines := σ.lines ++ highlight_code σ.code_block_content σ.code_block_lang,
             code_block_content := [], code_block_lang := [] }
  | MdEvent.text t =>
    if σ.in_code_block then
      { σ with code_block_content := σ.code_block_content ++ t }
    else
      let r := add_text_to_line fuel width σ.list_level σ.current_style
                 σ.lines σ.current_line t
      { σ with lines := r.1, current_line := r.2 }
  | MdEvent.softBreak =>
    if σ.in_code_block then σ
    else
      let r := add_text_to_line fuel width σ.list_level σ.current_style
                 σ.lines σ.current_line [' ']
      { σ with lines := r.1, current_line := r.2 }
  | MdEvent.hardBreak =>
    if σ.in_code_block then σ
    else
      let fl := flush_line σ.lines σ.current_line
      { σ with lines := fl.1, current_line := fl.2 }
  | MdEvent.listStart =>
    let fl := flush_line σ.lines σ.current_line
    { σ with lines := fl.1, current_line := fl.2, list_level := σ.list_level + 1 }
  | MdEvent.listEnd =>
    let fl := flush_line σ.lines σ.current_line
    { σ with lines := fl.1, current_line := fl.2, list_level := σ.list_level - 1 }
  | MdEvent.itemStart =>
    let fl := flush_line σ.lines σ.current_line
    let bullet := if σ.list_level % 2 = 1 then "• ".toList else "◦ ".toList
    { σ with lines := fl.1,
             current_line :=
               fl.2 ++ [Span.raw (List.replicate (2 * (σ.list_level - 1)) ' ' ++ bullet)] }
  | MdEvent.itemEnd =>
    let fl := flush_line σ.lines σ.current_line
    { σ with lines := fl.1, current_line := fl.2 }
  | MdEvent.emphStart => { σ with current_style := σ.current_style.addItalic }
  | MdEvent.emphEnd => { σ with current_style := σ.current_style.removeItalic }
  | MdEvent.strongStart => { σ with current_style := σ.current_style.addBold }
  | MdEvent.strongEnd => { σ with current_style := σ.current_style.removeBold }
  | MdEvent.codeSpan t =>
    let code_style : Style := { fg := some Color.Yellow, italic := true }
    let r := add_text_to_line fuel width σ.list_level code_style
               σ.lines σ.current_line ('\x60' :: (t ++ ['\x60']))
    { σ with lines := r.1, current_line := r.2 }
  | MdEvent.paraStart =>
    if σ.lines ≠ [] then { σ with lines := σ.lines ++ [⟨[]⟩] } else σ
  | MdEvent.paraEnd =>
    let fl := flush_line σ.lines σ.current_line
    { σ with lines := fl.1 ++ [⟨[]⟩], current_line := fl.2 }
  | MdEvent.otherEvent => σ

/-- Mirrors the trailing `while lines.last()...is_empty() { pop }` loop of
`render_markdown`. -/
def dropTrailingEmptyLines (ls : List Line) : List Line :=
  (ls.reverse.dropWhile (fun l => l.spans.isEmpty)).reverse

/-- Mirrors `render_markdown` on an already-parsed event stream: fold the
event handler over the events, flush the last line, trim trailing blanks. -/
def render_markdown (fuel : Nat) (events : List MdEvent) (width : Nat) : List Line :=
  let σ := events.foldl (processEvent fuel width) RState.init
  let fl := flush_line σ.lines σ.current_line
  dropTrailingEmptyLines fl.1

/-- All spans of a rendered line sequence, in order. -/
def allSpans (ls : List Line) : List Span := ls.flatMap (fun l => l.spans)

/-- Spans held anywhere in a renderer state (output buffer then current line). -/
def stateSpans (σ : RState) : List Span := allSpans σ.lines ++ σ.current_line

/-- Events that leave the list machinery and code blocks untouched:
`listStart` raises the indentation level, `itemStart` pushes a bullet span
(and underflows in Rust at list level 0), `codeBlockStart` switches to
verbatim buffering.  Everything else is plain. -/
def plainEvent (e : MdEvent) : Bool :=
  match e with
  | MdEvent.codeBlockStart _ => false
  | MdEvent.listStart => false
  | MdEvent.itemStart => false
  | _ => true

/-! ### Streaming ingestion (src/main.rs, `process_message`)

The streaming path buffers received bytes, repeatedly splits off complete
newline-terminated lines, parses each line as JSON, emits `message.content`
as a delta when present, and stops at `done == true`.  JSON parsing is done
by the external serde_json crate; the driver is therefore parameterised by
a parse function, and `miniParse` below models `serde_json::from_str` far
enough to evaluate the concrete scenarios.  Bytes are modelled as
characters: both claims about this loop concern the newline framing, and
`'\n'` occupies a single byte in UTF-8 (the per-line lossy UTF-8 decode is
the identity on the decoded view). -/

/-- Models `serde_json::Value` restricted to the shapes the driver reads. -/
inductive JValue
  | null
  | boolVal (b : Bool)
  | numVal (n : Int)
  | strVal (s : Str)
  | arr (elems : List JValue)
  | obj (fields : List (Str × JValue))

/-- Models `serde_json` string indexing (`json["key"]`): object field
lookup, with `Null` for a missing key and for any non-object. -/
def JValue.get (j : JValue) (key : Str) : JValue :=
  match j with
  | JValue.obj fields =>
    match fields.find? (fun f => f.1 == key) with
    | some f => f.2
    | none => JValue.null
  | _ => JValue.null

/-- Models `Value::as_str`. -/
def JValue.asStr : JValue → Option Str
  | JValue.strVal s => some s
  | _ => none

/-- Models `Value::as_bool`. -/
def JValue.asBool : JValue → Option Bool
  | JValue.boolVal b => some b
  | _ => none

/-- Extraction of `json["message"]["content"].as_str()` as a delta list:
one delta when the field is a string, none otherwise. -/
def contentDelta (j : JValue) : List Str :=
  match ((j.get "message".toList).get "content".toList).asStr with
  | some content => [content]
  | none => []

/-- Extraction of `json["done"].as_bool().unwrap_or(false)`. -/
def doneFlag (j : JValue) : Bool :=
  ((j.get "done".toList).asBool).getD false

/-- Mirrors the inner `while let Some(pos) = buffer.position(b'\n')` loop:
scan the buffer for the first newline (`lineAcc` holds the scanned part of
the current line), decode and parse the complete line, emit its content
delta, stop at the done sentinel.  Returns the emitted deltas, the
remaining buffer, and whether `done == true` ended ingestion. -/
def processBufGo (parse : Str → Option JValue) (lineAcc : Str) :
    Str → List Str × Str × Bool
  | [] => ([], lineAcc, false)
  | c :: cs =>
    if c = '\n' then
      match parse lineAcc with
      | none => processBufGo parse [] cs
      | some j =>
        if doneFlag j then (contentDelta j, cs, true)
        else
          let r := processBufGo parse [] cs
          (contentDelta j ++ r.1, r.2.1, r.2.2)
    else processBufGo parse (lineAcc ++ [c]) cs

/-- Drain every complete line currently in the buffer (inner loop entry). -/
def processBuffer (parse : Str → Option JValue) (buf : Str) : List Str × Str × Bool :=
  processBufGo parse [] buf

/-- Mirrors the outer `while let Some(chunk) = stream.next()` loop of the
streaming path: append each chunk to the buffer and drain complete lines;
`done == true` returns immediately, discarding the remaining buffer and
all later chunks.  Returns the deltas sent over the channel, in order, and
whether the done sentinel ended ingestion. -/
def processStreamGo (parse : Str → Option JValue) (buf : Str) :
    List Str → List Str × Bool
  | [] => ([], false)
  | chunk :: chunks =>
    let r := processBuffer parse (buf ++ chunk)
    if r.2.2 then (r.1, true)
    else
      let r2 := processStreamGo parse r.2.1 chunks
      (r.1 ++ r2.1, r2.2)

/-- The streaming path of `process_message`, from an empty buffer. -/
def process_stream (parse : Str → Option JValue) (chunks : List Str) : List Str × Bool :=
  processStreamGo parse [] chunks

/-- Specification-side framing of an NDJSON byte sequence: the complete
newline-terminated lines together with the trailing incomplete remainder. -/
def splitComplete : Str → List Str × Str
  | [] => ([], [])
  | c :: cs =>
    let p := splitComplete cs
    if c = '\n' then ([] :: p.1, p.2)
    else
      match p.1 with
      | [] => ([], c :: p.2)
      | l :: ls => ((c :: l) :: ls, p.2)

/-- The complete NDJSON lines of a byte sequence. -/
def completeLines (s : Str) : List Str := (splitComplete s).1

/-- Specification side of the ingestion claims, stated over complete lines
in arrival order: a line that fails to parse is skipped; a line that parses
contributes one delta when `message.content` is a string; a line with
`done == true` ends ingestion immediately after its delta, discarding every
later line. -/
def lineDeltas (parse : Str → Option JValue) : List Str → List Str × Bool
  | [] => ([], false)
  | line :: rest =>
    match parse line with
    | none => lineDeltas parse rest
    | some j =>
      if doneFlag j then (contentDelta j, true)
      else
        let r := lineDeltas parse rest
        (contentDelta j ++ r.1, r.2)

/-- Rebuild a byte sequence from newline-free lines, newline-terminated. -/
def joinLines (ls : List Str) : Str := ls.foldr (fun l acc => l ++ '\n' :: acc) []

/-! ### A concrete JSON parse function (models `serde_json::from_str`) -/

/-- JSON insignificant whitespace. -/
def isJsonWs (c : Char) : Bool := (c == ' ') || (c == '\t') || (c == '\n') || (c == '\r')

/-- Models JSON string-literal escapes accepted by serde_json, minus the
`\u` form, which no input here uses. -/
def unescapeChar (c : Char) : Option Char :=
  if c = '"' then some '"'
  else if c = '\\' then some '\\'
  else if c = '/' then some '/'
  else if c = 'n' then some '\n'
  else if c = 't' then some '\t'
  else if c = 'r' then some '\r'
  else if c = 'b' then some (Char.ofNat 8)
  else if c = 'f' then some (Char.ofNat 12)
  else none

/-- Parse the body of a JSON string literal after the opening quote. -/
def parseStringBody : Str → Option (Str × Str)
  | [] => none
  | c :: rest =>
    if c = '"' then some ([], rest)
    else if c = '\\' then
      match rest with
      | [] => none
      | e :: rest2 =>
        match unescapeChar e with
        | some ch => (parseStringBody rest2).map (fun p => (ch :: p.1, p.2))
        | none => none
    else (parseStringBody rest).map (fun p => (c :: p.1, p.2))

/-- Parse a JSON numeric token (digits with optional sign and fraction);
the stored value keeps the integer part only — no claim reads numbers. -/
def parseNumberTok (s : Str) : Option (JValue × Str) :=
  let neg := s.head? == some '-'
  let s1 := if neg then s.drop 1 else s
  let digits := s1.takeWhile Char.isDigit
  if digits = [] then none
  else
    let rest0 := s1.dropWhile Char.isDigit
    let rest1 :=
      match rest0 with
      | '.' :: r => if r.takeWhile Char.isDigit = [] then rest0 else r.dropWhile Char.isDigit
      | _ => rest0
    let n : Int := digits.foldl (fun acc d => acc * 10 + (d.toNat - '0'.toNat)) (0 : Int)
    some (JValue.numVal (if neg then -n else n), rest1)

mutual

/-- Parse one JSON value (fuel-bounded recursive descent). -/
def parseJValue : Nat → Str → Option (JValue × Str)
  | 0, _ => none
  | fuel + 1, s =>
    match s.dropWhile isJsonWs with
    | [] => none
    | c :: rest =>
      if c = '"' then (parseStringBody rest).map (fun p => (JValue.strVal p.1, p.2))
      else if c = '\x7b' then
        match rest.dropWhile isJsonWs with
        | '\x7d' :: r => some (JValue.obj [], r)
        | _ => parseObjMembers fuel [] rest
      else if c = '[' then
        match rest.dropWhile isJsonWs with
        | ']' :: r => some (JValue.arr [], r)
        | _ => parseArrElems fuel [] rest
      else if c = 't' then
        match rest with
        | 'r' :: 'u' :: 'e' :: r => some (JValue.boolVal true, r)
        | _ => none
      else if c = 'f' then
        match rest with
        | 'a' :: 'l' :: 's' :: 'e' :: r => some (JValue.boolVal false, r)
        | _ => none
      else if c = 'n' then
        match rest with
        | 'u' :: 'l' :: 'l' :: r => some (JValue.null, r)
        | _ => none
      else if c = '-' ∨ c.isDigit then parseNumberTok (c :: rest)
      else none

/-- Parse object members after `{` (at least one member present). -/
def parseObjMembers : Nat → List (Str × JValue) → Str → Option (JValue × Str)
  | 0, _, _ => none
  | fuel + 1, acc, s =>
    match s.dropWhile isJsonWs with
    | '"' :: r1 =>
      match parseStringBody r1 with
      | none => none
      | some (key, r2) =>
        match r2.dropWhile isJsonWs with
        | ':' :: r3 =>
          match parseJValue fuel r3 with
          | none => none
          | some (v, r4) =>
            match r4.dropWhile isJsonWs with
            | ',' :: r5 => parseObjMembers fuel (acc ++ [(key, v)]) r5
            | '\x7d' :: r5 => some (JValue.obj (acc ++ [(key, v)]), r5)
            | _ => none
        | _ => none
    | _ => none

/-- Parse array elements after `[` (at least one element present). -/
def parseArrElems : Nat → List JValue → Str → Option (JValue × Str)
  | 0, _, _ => none
  | fuel + 1, acc, s =>
    match parseJValue fuel s with
    | none => none
    | some (v, r1) =>
      match r1.dropWhile isJsonWs with
      | ',' :: r2 => parseArrElems fuel (acc ++ [v]) r2
      | ']' :: r2 => some (JValue.arr (acc ++ [v]), r2)
      | _ => none

end

/-- Models `serde_json::from_str::<Value>`: one JSON value followed only by
whitespace. -/
def miniParse (s : Str) : Option JValue :=
  match parseJValue (2 * s.length + 4) s with
  | some (v, rest) => if rest.dropWhile isJsonWs = [] then some v else none
  | none => none

/-! ### Concrete scenario inputs -/

/-- First streaming chunk of Scenario B. -/
def chunkB1 : Str := "\x7b\"message\":\x7b\"content\":\"He\"\x7d\x7d\n".toList

/-- Second streaming chunk of Scenario B. -/
def chunkB2 : Str := "\x7b\"message\":\x7b\"content\":\"llo\"\x7d,\"done\":true\x7d\n".toList

/-! ### Specification-side definitions and invariants -/

/-- Specification side of claim C2, one key: a character key appends its
character, Backspace removes the last character, anything else leaves the
text alone. -/
def editStep (acc : Str) (k : Key) : Str :=
  match k with
  | Key.char c => acc ++ [c]
  | Key.backspace => acc.dropLast
  | _ => acc

/-- Specification side of claim C2: the concatenation of the character keys
pressed minus the characters removed by Backspace. -/
def editedText (keys : List Key) : Str := keys.foldl editStep []

/-- Fold `handle_editing_mode` over a key sequence (used for sequences
without Enter, whose steps emit no message). -/
def applyEditKeys (s : State) : List Key → State
  | [] => s
  | k :: ks => applyEditKeys (handle_editing_mode s k).1 ks

/-- Response-loop events that neither terminate the loop nor carry an
Escape key press: deltas and timer ticks with no Escape observed. -/
def nonTerminalEvent (e : REvent) : Bool :=
  match e with
  | REvent.delta _ esc => !esc
  | REvent.tick esc => !esc
  | _ => false

/-- Invariant of claim C6: outside Waiting mode the streaming accumulator
is empty. -/
abbrev respInv (s : State) : Prop :=
  s.input_mode ≠ InputMode.Waiting → s.current_response = []

/-- Invariant of claim C7: the selected index stays below the message count
when messages exist, and is 0 when there are none. -/
abbrev selInv (s : State) : Prop :=
  (s.messages = [] → s.list_selected.getD 0 = 0) ∧
  (s.messages ≠ [] → s.list_selected.getD 0 < s.messages.length)

/-- Invariant used for the amended claim C3: every flushed line and the
current line stay within one column of the width budget, and the list and
code-block machinery is quiescent. -/
def widthInvState (width : Nat) (σ : RState) : Prop :=
  (∀ l ∈ σ.lines, lineWidth l ≤ width + 1) ∧
  spansWidth σ.current_line ≤ width + 1 ∧
  σ.list_level = 0 ∧ σ.in_code_block = false ∧ σ.code_block_content = []

/-! ### Concrete states and inputs used by witnesses and counterexamples -/

/-- State after pressing `e` in Normal mode on the fresh state. -/
def editingState : State := handle_normal_mode State.new (Key.char 'e')

/-- Key sequence typing `h`, `i`, Backspace, `o`. -/
def edKeys : List Key := [Key.char 'h', Key.char 'i', Key.backspace, Key.char 'o']

/-- State after typing `hi` in Editing mode and pressing Enter. -/
def submittedState : State :=
  (handle_editing_mode
    (applyEditKeys editingState [Key.char 'h', Key.char 'i']) Key.enter).1

/-- State at the top of a streaming turn: after Enter, `main` calls
`start_new_response`, pushing the empty assistant placeholder. -/
def turnState : State := submittedState.start_new_response

/-- Turn state after one streamed delta `"He"`. -/
def streamedState : State := turnState.update_response "He".toList

/-- Waiting state scrolled to the last of its two messages. -/
def scrolledWaitingState : State := submittedState.scroll_down

/-- First complete NDJSON line of Scenario B. -/
def lineGood : Str := chunkB1.dropLast

/-- A line that is not valid JSON. -/
def lineBad : Str := "not json".toList

/-- A parseable NDJSON line carrying the done sentinel. -/
def lineDone : Str := chunkB2.dropLast

/-- Markdown event stream of `ab *cde*` as parsed by pulldown-cmark:
a paragraph holding text `ab ` and emphasised text `cde`. -/
def cexEvents : List MdEvent :=
  [MdEvent.paraStart, MdEvent.text "ab ".toList, MdEvent.emphStart,
   MdEvent.text "cde".toList, MdEvent.emphEnd, MdEvent.paraEnd]

/-- Effect of one event on the renderer's `current_style`: only the
Emphasis/Strong start and end arms touch it (a union of decorations — add
or remove one flag, never an overwrite). -/
def styleStep (st : Style) (e : MdEvent) : Style :=
  match e with
  | MdEvent.emphStart => st.addItalic
  | MdEvent.emphEnd => st.removeItalic
  | MdEvent.strongStart => st.addBold
  | MdEvent.strongEnd => st.removeBold
  | _ => st

/-- The inline style active after a sequence of events: the union of the
decorations whose Start has been seen without a matching End. -/
def styleAt (es : List MdEvent) : Style := es.foldl styleStep {}

/-- Effect of one event on the `in_code_block` flag. -/
def inCodeStep (b : Bool) (e : MdEvent) : Bool :=
  match e with
  | MdEvent.codeBlockStart _ => true
  | MdEvent.codeBlockEnd => false
  | _ => b

/-- Whether a sequence of events ends inside a fenced code block. -/
def inCodeAt (es : List MdEvent) : Bool := es.foldl inCodeStep false

/-- Effect of one event on the list nesting level. -/
def levelStep (n : Nat) (e : MdEvent) : Nat :=
  match e with
  | MdEvent.listStart => n + 1
  | MdEvent.listEnd => n - 1
  | _ => n

/-- The list nesting level after a sequence of events. -/
def levelAt (es : List MdEvent) : Nat := es.foldl levelStep 0

/-- Well-formed item placement: every `itemStart` occurs at a positive list
level, as in any stream produced by the markdown parser.  At level 0 the
Rust `"  ".repeat(list_level - 1)` underflows. -/
def wfItemsFrom (n : Nat) : List MdEvent → Bool
  | [] => true
  | e :: es =>
    (match e with
     | MdEvent.itemStart => decide (0 < n)
     | _ => true)
    && wfItemsFrom (levelStep n e) es

/-- Well-formed item placement from the renderer's initial level. -/
def wfItems (es : List MdEvent) : Bool := wfItemsFrom 0 es

/-- Markdown event stream of `` **`x`** *y* `` as parsed by pulldown-cmark:
a paragraph whose strong region wraps only an inline code span, followed by
emphasised text. -/
def c10CexEvents : List MdEvent :=
  [MdEvent.paraStart, MdEvent.strongStart, MdEvent.codeSpan ['x'], MdEvent.strongEnd,
   MdEvent.text " ".toList, MdEvent.emphStart, MdEvent.text "y".toList, MdEvent.emphEnd,
   MdEvent.paraEnd]

/-! ## Theorems -/

/-- Keys other than Enter and Escape change only the input buffer and the
horizontal scroll: the buffer evolves by `editStep`, while messages and the
mode stay fixed. -/
theorem applyEditKeys_spec (keys : List Key) : ∀ s : State,
    (∀ k ∈ keys, k ≠ Key.enter ∧ k ≠ Key.esc) →
    (applyEditKeys s keys).input = keys.foldl editStep s.input ∧
    (applyEditKeys s keys).messages = s.messages ∧
    (applyEditKeys s keys).input_mode = s.input_mode := by
  induction keys with
  | nil => intro s _; exact ⟨rfl, rfl, rfl⟩
  | cons k ks ih =>
    intro s h
    have hk := h k (List.mem_cons_self k ks)
    have hks : ∀ k' ∈ ks, k' ≠ Key.enter ∧ k' ≠ Key.esc :=
      fun k' hm => h k' (List.mem_cons_of_mem _ hm)
    cases k with
    | enter => exact absurd rfl hk.1
    | esc => exact absurd rfl hk.2
    | char c => simpa [applyEditKeys, handle_editing_mode, editStep] using ih _ hks
    | backspace => simpa [applyEditKeys, handle_editing_mode, editStep] using ih _ hks
    | left => simpa [applyEditKeys, handle_editing_mode, editStep] using ih _ hks
    | right => simpa [applyEditKeys, handle_editing_mode, editStep] using ih _ hks
    | up => simpa [applyEditKeys, handle_editing_mode, editStep] using ih _ hks
    | down => simpa [applyEditKeys, handle_editing_mode, editStep] using ih _ hks
    | other => simpa [applyEditKeys, handle_editing_mode, editStep] using ih _ hks

/-- C2: for every Editing-mode key sequence ending in Enter, the handler
returns the concatenation of the character keys minus the backspaced
characters; at that moment the input buffer is drained, a user message and
then the `Generating...` system placeholder are appended in that order, the
horizontal scroll resets to 0, and the mode becomes Waiting. -/
theorem editing_enter_spec (s : State) (keys : List Key)
    (hmode : s.input_mode = InputMode.Editing) (hinput : s.input = [])
    (hkeys : ∀ k ∈ keys, k ≠ Key.enter ∧ k ≠ Key.esc) :
    (handle_editing_mode (applyEditKeys s keys) Key.enter).2 = some (editedText keys) ∧
    (handle_editing_mode (applyEditKeys s keys) Key.enter).1.input = [] ∧
    (handle_editing_mode (applyEditKeys s keys) Key.enter).1.input_mode
      = InputMode.Waiting ∧
    (handle_editing_mode (applyEditKeys s keys) Key.enter).1.messages
      = s.messages ++ [("user".toList, editedText keys),
                       ("system".toList, "Generating...".toList)] ∧
    (handle_editing_mode (applyEditKeys s keys) Key.enter).1.horizontal_scroll = 0 := by
  obtain ⟨hi, hm, _⟩ := applyEditKeys_spec keys s hkeys
  have hit : (applyEditKeys s keys).input = editedText keys := by
    rw [hi, hinput]; rfl
  refine ⟨?_, ?_, ?_, ?_, ?_⟩ <;>
    simp [handle_editing_mode, hit, hm]

/-- Witness for C2 at the key sequence `h`, `i`, Backspace, `o`. -/
theorem editing_enter_spec_witness :
    (handle_editing_mode (applyEditKeys editingState edKeys) Key.enter).2
      = some (editedText edKeys) ∧
    (handle_editing_mode (applyEditKeys editingState edKeys) Key.enter).1.input = [] ∧
    (handle_editing_mode (applyEditKeys editingState edKeys) Key.enter).1.input_mode
      = InputMode.Waiting ∧
    (handle_editing_mode (applyEditKeys editingState edKeys) Key.enter).1.messages
      = editingState.messages ++
          [("user".toList, editedText edKeys),
           ("system".toList, "Generating...".toList)] ∧
    (handle_editing_mode (applyEditKeys editingState edKeys) Key.enter).1.horizontal_scroll
      = 0 :=
  editing_enter_spec editingState edKeys rfl rfl (by decide)

/-- C4: calling `add_response` while waiting with the message log ending in
the `Generating...` system placeholder followed by the assistant stub
removes both and appends the single final assistant message; the mode
resets to Normal, the accumulator empties, the horizontal scroll resets. -/
theorem add_response_spec (s : State) (r p : Str) (pre : List (Str × Str))
    (hmode : s.input_mode = InputMode.Waiting)
    (hmsgs : s.messages = pre ++ [("system".toList, "Generating...".toList),
                                  ("assistant".toList, p)]) :
    (s.add_response r).messages = pre ++ [("assistant".toList, r)] ∧
    (s.add_response r).input_mode = InputMode.Normal ∧
    (s.add_response r).current_response = [] ∧
    (s.add_response r).horizontal_scroll = 0 := by
  have hsplit : s.messages
      = (pre ++ [("system".toList, "Generating...".toList)]) ++ [("assistant".toList, p)] := by
    rw [hmsgs]; simp
  have e1 : s.messages.dropLast = pre ++ [("system".toList, "Generating...".toList)] := by
    rw [hsplit, List.dropLast_concat]
  have e2 : (pre ++ [("system".toList, "Generating...".toList)]).getLast?
      = some ("system".toList, "Generating...".toList) := List.getLast?_concat _
  have e3 : (pre ++ [("system".toList, "Generating...".toList)]).dropLast = pre :=
    List.dropLast_concat
  refine ⟨?_, ?_, ?_, ?_⟩ <;>
    simp [State.add_response, hmode, e1, e2, e3]

/-- Witness for C4 at the start-of-turn state of the `hi` conversation. -/
theorem add_response_spec_witness :
    (turnState.add_response "Hi there".toList).messages
      = [("user".toList, "hi".toList)] ++ [("assistant".toList, "Hi there".toList)] ∧
    (turnState.add_response "Hi there".toList).input_mode = InputMode.Normal ∧
    (turnState.add_response "Hi there".toList).current_response = [] ∧
    (turnState.add_response "Hi there".toList).horizontal_scroll = 0 :=
  add_response_spec turnState "Hi there".toList [] [("user".toList, "hi".toList)]
    rfl (by decide)

/-- `State.update_response` never changes the input mode. -/
theorem update_response_mode (s : State) (c : Str) :
    (s.update_response c).input_mode = s.input_mode := by
  simp only [State.update_response]
  split
  · split <;> rfl
  · rfl

/-- C6 (amended): the invariant `mode ≠ Waiting → current_response = []`
holds initially and is preserved by every conversation-state operation
except the bare Escape transitions of `Interface::update` / `Interface::run`
(which flip the mode without clearing the accumulator — see the
counterexample); the full cancellation sequence, Escape followed by
`add_response`, does preserve it. -/
theorem resp_inv_preserved :
    respInv State.new ∧
    (∀ s : State, respInv s → respInv s.scroll_up) ∧
    (∀ s : State, respInv s → respInv s.scroll_down) ∧
    (∀ (s : State) (c : Str), respInv s → respInv (s.update_response c)) ∧
    (∀ (s : State) (r : Str), respInv (s.add_response r)) ∧
    (∀ s : State, respInv s.start_new_response) ∧
    (∀ (s : State) (k : Key), s.input_mode = InputMode.Normal → respInv s →
      respInv (handle_normal_mode s k)) ∧
    (∀ (s : State) (k : Key), s.input_mode = InputMode.Editing → respInv s →
      respInv (handle_editing_mode s k).1) ∧
    (∀ (s : State) (esc : Bool) (r : Str),
      respInv (((Interface.update esc s).1).add_response r)) := by
  refine ⟨fun _ => rfl, fun s h => h, fun s h => h, ?_, fun s r _ => rfl,
    fun s h => absurd rfl h, ?_, ?_, fun s esc r _ => rfl⟩
  · intro s c h hne
    have hs : ¬ s.input_mode = InputMode.Waiting := by
      rwa [update_response_mode] at hne
    simpa [State.update_response, hs] using h hs
  · intro s k hmode h _
    have hc : s.current_response = [] := h (by simp [hmode])
    cases k with
    | char c =>
      simp only [handle_normal_mode]
      split_ifs <;> exact hc
    | _ => exact hc
  · intro s k hmode h _
    have hc : s.current_response = [] := h (by simp [hmode])
    cases k <;> exact hc

/-- Witness for C6: the `update_response` conjunct at the mid-stream state. -/
theorem resp_inv_preserved_witness :
    respInv (streamedState.update_response "llo".toList) :=
  resp_inv_preserved.2.2.2.1 streamedState "llo".toList (by decide)

/-- C6 counterexample: the Escape branch of `Interface::update` takes the
reachable mid-stream state (Waiting, accumulator `"He"`) — which satisfies
the invariant — to a Normal-mode state whose accumulator is still `"He"`,
violating it. -/
theorem resp_inv_cancel_counterexample :
    respInv streamedState ∧ ¬ respInv ((Interface.update true streamedState).1) := by
  decide

/-- `State.scroll_up` preserves the selection invariant. -/
theorem scroll_up_selInv (s : State) (h : selInv s) : selInv s.scroll_up := by
  obtain ⟨h1, h2⟩ := h
  refine ⟨fun he => ?_, fun hne => ?_⟩
  · have h0 := h1 he
    simp [State.scroll_up] at h0 ⊢
    omega
  · have hlt := h2 hne
    simp [State.scroll_up] at hlt ⊢
    omega

/-- `State.scroll_down` preserves the selection invariant. -/
theorem scroll_down_selInv (s : State) (h : selInv s) : selInv s.scroll_down := by
  obtain ⟨h1, h2⟩ := h
  refine ⟨fun he => ?_, fun hne => ?_⟩
  · have hlen : s.messages.length = 0 := by
      simp [State.scroll_down] at he
      simp [he]
    simp [State.scroll_down, hlen]
  · have hpos : 0 < s.messages.length := by
      simp [State.scroll_down] at hne
      exact List.length_pos.mpr hne
    simp [State.scroll_down]
    omega

/-- `State.add_response` establishes the selection invariant outright. -/
theorem add_response_selInv (s : State) (r : Str) : selInv (s.add_response r) := by
  refine ⟨fun he => ?_, fun _ => ?_⟩
  · simp [State.add_response] at he
  · simp [State.add_response]

/-- While waiting, `State.update_response` rewrites the message log into a
prefix (the old log or its drop-last) plus the refreshed trailing assistant
message, and either keeps the selection or moves it to the new last row. -/
theorem update_response_shape (s : State) (c : Str)
    (hw : s.input_mode = InputMode.Waiting) :
    ((s.update_response c).messages
        = s.messages.dropLast ++ [("assistant".toList, s.current_response ++ c)] ∨
      (s.update_response c).messages
        = s.messages ++ [("assistant".toList, s.current_response ++ c)]) ∧
    ((s.update_response c).list_selected = s.list_selected ∨
      (s.update_response c).list_selected
        = some ((s.update_response c).messages.length - 1)) := by
  simp only [State.update_response, hw, if_true, reduceIte]
  cases hlast : s.messages.getLast? with
  | none =>
    constructor
    · right; split <;> rfl
    · split
      · right; rfl
      · left; rfl
  | some m =>
    obtain ⟨role, content⟩ := m
    by_cases hrole : role = "assistant".toList
    · simp only [hrole, if_true, reduceIte]
      constructor
      · left; split <;> rfl
      · split
        · right; rfl
        · left; rfl
    · simp only [if_neg hrole]
      constructor
      · right; split <;> rfl
      · split
        · right; rfl
        · left; rfl

/-- `State.update_response` preserves the selection invariant. -/
theorem update_response_selInv (s : State) (c : Str) (h : selInv s) :
    selInv (s.update_response c) := by
  obtain ⟨h1, h2⟩ := h
  by_cases hw : s.input_mode = InputMode.Waiting
  · obtain ⟨hm, hsel⟩ := update_response_shape s c hw
    have hne : (s.update_response c).messages ≠ [] := by
      rcases hm with hm | hm <;> simp [hm]
    have hpos : 0 < (s.update_response c).messages.length := List.length_pos.mpr hne
    have hlen : s.messages.length ≤ (s.update_response c).messages.length := by
      rcases hm with hm | hm <;> rw [hm] <;> simp <;> omega
    refine ⟨fun he => absurd he hne, fun _ => ?_⟩
    rcases hsel with hs | hs
    · rw [hs]
      rcases eq_or_ne s.messages [] with hnil | hne2
      · rw [h1 hnil]; exact hpos
      · exact lt_of_lt_of_le (h2 hne2) hlen
    · rw [hs]
      simp only [Option.getD_some]
      omega
  · have heq : s.update_response c = s := by simp [State.update_response, hw]
    rw [heq]
    exact ⟨h1, h2⟩

/-- `State.start_new_response` preserves the selection invariant. -/
theorem start_new_response_selInv (s : State) (h : selInv s) :
    selInv s.start_new_response := by
  obtain ⟨h1, h2⟩ := h
  refine ⟨fun he => ?_, fun hne => ?_⟩
  · simp [State.start_new_response] at he
  · simp only [State.start_new_response]
    rcases eq_or_ne s.messages [] with hnil | hne2
    · have := h1 hnil
      simp [hnil, this]
    · have := h2 hne2
      simp only [List.length_append, List.length_cons, List.length_nil]
      omega

/-- The Escape pop of `Interface::run` preserves the selection invariant
when the selection is not on the last of at least two messages. -/
theorem runEsc_selInv (s : State)
    (hx : s.list_selected.getD 0 + 1 < s.messages.length ∨ s.messages.length ≤ 1)
    (h : selInv s) : selInv (Interface.runEsc s) := by
  obtain ⟨h1, h2⟩ := h
  unfold Interface.runEsc
  split
  · refine ⟨fun he => ?_, fun hne => ?_⟩
    · simp only at he ⊢
      rcases eq_or_ne s.messages [] with hnil | hne2
      · simpa using h1 hnil
      · have hlt := h2 hne2
        have hlen : s.messages.dropLast.length = s.messages.length - 1 := by simp
        rw [he] at hlen
        simp at hlen
        omega
    · simp only at hne ⊢
      have hlen : s.messages.dropLast.length = s.messages.length - 1 := by simp
      have hpos : 0 < s.messages.dropLast.length := List.length_pos.mpr hne
      rw [hlen] at hpos ⊢
      rcases hx with hx | hx
      · omega
      · omega
  · exact ⟨h1, h2⟩

/-- C7 (amended): the invariant "`selected_index < messages.len()` when
messages is non-empty, and 0 when empty" holds initially and is preserved
by every conversation-state operation and by the full cancellation
sequence; the Escape pop of `Interface::run` preserves it only when the
selection is not sitting on the last of at least two messages (see the
counterexample for the excluded case). -/
theorem sel_inv_preserved :
    selInv State.new ∧
    (∀ s : State, selInv s → selInv s.scroll_up) ∧
    (∀ s : State, selInv s → selInv s.scroll_down) ∧
    (∀ (s : State) (c : Str), selInv s → selInv (s.update_response c)) ∧
    (∀ (s : State) (r : Str), selInv (s.add_response r)) ∧
    (∀ s : State, selInv s → selInv s.start_new_response) ∧
    (∀ (s : State) (k : Key), selInv s → selInv (handle_normal_mode s k)) ∧
    (∀ (s : State) (k : Key), selInv s → selInv (handle_editing_mode s k).1) ∧
    (∀ (s : State) (esc : Bool), selInv s → selInv ((Interface.update esc s).1)) ∧
    (∀ (s : State) (esc : Bool) (r : Str),
      selInv (((Interface.update esc s).1).add_response r)) ∧
    (∀ s : State, (s.list_selected.getD 0 + 1 < s.messages.length ∨ s.messages.length ≤ 1) →
      selInv s → selInv (Interface.runEsc s)) := by
  refine ⟨by decide, scroll_up_selInv, scroll_down_selInv, update_response_selInv,
    add_response_selInv, start_new_response_selInv, ?_, ?_, ?_,
    fun s esc r => add_response_selInv _ r, runEsc_selInv⟩
  · intro s k h
    cases k with
    | char c =>
      simp only [handle_normal_mode]
      split_ifs <;> exact h
    | up => exact scroll_up_selInv s h
    | down => exact scroll_down_selInv s h
    | _ => exact h
  · intro s k h
    obtain ⟨h1, h2⟩ := h
    cases k with
    | enter =>
      refine ⟨fun he => ?_, fun hne => ?_⟩
      · simp [handle_editing_mode] at he
      · simp only [handle_editing_mode]
        rcases eq_or_ne s.messages [] with hnil | hne2
        · have := h1 hnil
          simp [hnil, this]
        · have := h2 hne2
          simp only [List.length_append, List.length_cons, List.length_nil]
          omega
    | _ => exact ⟨h1, h2⟩
  · intro s esc h
    unfold Interface.update
    split
    · exact h
    · exact h

/-- Witness for C7: the scroll conjunct at the start-of-turn state. -/
theorem sel_inv_preserved_witness : selInv (State.scroll_down turnState) :=
  sel_inv_preserved.2.2.1 turnState (by decide)

/-- C7 counterexample: the Escape pop of `Interface::run`, applied to the
reachable Waiting state whose selection sits on the last of two messages,
leaves the selected index equal to the new length, breaking the invariant. -/
theorem sel_inv_pop_counterexample :
    selInv scrolledWaitingState ∧
    scrolledWaitingState.input_mode = InputMode.Waiting ∧
    ¬ selInv (Interface.runEsc scrolledWaitingState) := by
  decide

/-- C8: every conversation-state operation keeps the message log
append-only.  Scrolls and the bare Escape transition of `update` leave it
unchanged; Enter appends the user message then the placeholder;
`update_response` either appends the trailing assistant message or rewrites
only the last message (same assistant role); `add_response` pops at most
the last two messages before appending the final assistant message;
`start_new_response` appends; the `run` Escape branch pops only the
then-last message.  No operation reorders or touches any earlier
message. -/
theorem messages_frame (s : State) (c r : Str) (k : Key) (esc : Bool) :
    s.scroll_up.messages = s.messages ∧
    s.scroll_down.messages = s.messages ∧
    (handle_normal_mode s k).messages = s.messages ∧
    ((Interface.update esc s).1).messages = s.messages ∧
    ((handle_editing_mode s k).1.messages = s.messages ∨
      (handle_editing_mode s k).1.messages
        = s.messages ++ [("user".toList, s.input),
                         ("system".toList, "Generating...".toList)]) ∧
    ((s.update_response c).messages = s.messages ∨
      (s.update_response c).messages
        = s.messages ++ [("assistant".toList, s.current_response ++ c)] ∨
      (∃ ms content, s.messages = ms ++ [("assistant".toList, content)] ∧
        (s.update_response c).messages
          = ms ++ [("assistant".toList, s.current_response ++ c)])) ∧
    ((s.add_response r).messages = s.messages ++ [("assistant".toList, r)] ∨
      (s.add_response r).messages = s.messages.dropLast ++ [("assistant".toList, r)] ∨
      (s.add_response r).messages
        = s.messages.dropLast.dropLast ++ [("assistant".toList, r)]) ∧
    s.start_new_response.messages = s.messages ++ [("assistant".toList, [])] ∧
    ((Interface.runEsc s).messages = s.messages ∨
      (Interface.runEsc s).messages = s.messages.dropLast) := by
  refine ⟨rfl, rfl, ?_, ?_, ?_, ?_, ?_, rfl, ?_⟩
  · cases k with
    | char ch =>
      simp only [handle_normal_mode]
      split_ifs <;> rfl
    | _ => rfl
  · unfold Interface.update
    split
    · rfl
    · rfl
  · cases k with
    | enter => right; rfl
    | _ => left; rfl
  · by_cases hw : s.input_mode = InputMode.Waiting
    · rcases s.messages.eq_nil_or_concat with hnil | ⟨ms, m, hconcat⟩
      · right; left
        have hlast : s.messages.getLast? = none := by rw [hnil]; rfl
        simp only [State.update_response, hw, if_true, reduceIte, hlast]
        split <;> rfl
      · rw [List.concat_eq_append] at hconcat
        obtain ⟨role, content⟩ := m
        have hlast : s.messages.getLast? = some (role, content) := by
          rw [hconcat]; exact List.getLast?_concat _
        have hdrop : s.messages.dropLast = ms := by
          rw [hconcat]; exact List.dropLast_concat
        by_cases hrole : role = "assistant".toList
        · right; right
          refine ⟨ms, content, by rw [hconcat, hrole], ?_⟩
          simp only [State.update_response, hw, if_true, reduceIte, hlast, hrole]
          rw [← hdrop]
          split <;> rfl
        · right; left
          simp only [State.update_response, hw, if_true, reduceIte, hlast,
            if_neg hrole]
          split <;> rfl
    · left
      simp [State.update_response, hw]
  · by_cases hw : s.input_mode = InputMode.Waiting
    · simp only [State.add_response, hw, if_true, reduceIte]
      cases hlast : s.messages.dropLast.getLast? with
      | none => right; left; rfl
      | some m =>
        obtain ⟨role, content⟩ := m
        by_cases hc : role = "system".toList ∧ content = "Generating...".toList
        · right; right
          simp only [hlast, if_pos hc]
        · right; left
          simp only [hlast, if_neg hc]
    · left
      simp [State.add_response, hw]
  · unfold Interface.runEsc
    split
    · right; rfl
    · left; rfl

/-- Applying a non-Escape delta or tick leaves the loop running: the state
evolves by `update_response` only, so the mode stays Waiting. -/
theorem processResponse_cancel_go (pre : List REvent) : ∀ (s : State) (full : Str)
    (post : List REvent), s.input_mode = InputMode.Waiting →
    (∀ e ∈ pre, nonTerminalEvent e = true) →
    processResponseGo s full (pre ++ REvent.tick true :: post)
      = ({ processResponseGo s full pre with
            input_mode := InputMode.Normal }).add_response "Request cancelled".toList := by
  induction pre with
  | nil =>
    intro s full post hmode _
    simp [processResponseGo, Interface.update, hmode]
  | cons e pre ih =>
    intro s full post hmode hok
    have he := hok e (List.mem_cons_self e pre)
    cases e with
    | delta c esc =>
      have hesc : esc = false := by
        cases esc
        · rfl
        · exact absurd he (by simp [nonTerminalEvent])
      subst hesc
      have hmode1 : (s.update_response c).input_mode = InputMode.Waiting := by
        rw [update_response_mode]; exact hmode
      have hok' : ∀ e' ∈ pre, nonTerminalEvent e' = true :=
        fun e' hm => hok e' (List.mem_cons_of_mem _ hm)
      simpa [processResponseGo, Interface.update] using
        ih (s.update_response c) (full ++ c) post hmode1 hok'
    | tick esc =>
      have hesc : esc = false := by
        cases esc
        · rfl
        · exact absurd he (by simp [nonTerminalEvent])
      subst hesc
      have hok' : ∀ e' ∈ pre, nonTerminalEvent e' = true :=
        fun e' hm => hok e' (List.mem_cons_of_mem _ hm)
      simpa [processResponseGo, Interface.update] using ih s full post hmode hok'
    | errEvent m => exact absurd he (by simp [nonTerminalEvent])
    | closed => exact absurd he (by simp [nonTerminalEvent])

/-- C5 (amended): pressing Escape while waiting ends the turn immediately —
the final state does not depend on anything after the Escape tick — and
appends an assistant-role `Request cancelled` message, with the mode reset
to Normal.  The `Generating...` placeholder is NOT removed or replaced on
this path: `Interface::update` has already set the mode to Normal when
`add_response` runs, so its placeholder-popping branch is skipped (see the
counterexample). -/
theorem cancel_on_escape (s : State) (pre post : List REvent)
    (hmode : s.input_mode = InputMode.Waiting)
    (hpre : ∀ e ∈ pre, nonTerminalEvent e = true) :
    processResponse s (pre ++ REvent.tick true :: post)
      = ({ processResponse s pre with
            input_mode := InputMode.Normal }).add_response "Request cancelled".toList ∧
    (processResponse s (pre ++ REvent.tick true :: post)).messages
      = (processResponse s pre).messages
          ++ [("assistant".toList, "Request cancelled".toList)] ∧
    (processResponse s (pre ++ REvent.tick true :: post)).input_mode
      = InputMode.Normal := by
  have h : processResponse s (pre ++ REvent.tick true :: post)
      = ({ processResponse s pre with
            input_mode := InputMode.Normal }).add_response "Request cancelled".toList :=
    processResponse_cancel_go pre s [] post hmode hpre
  refine ⟨h, ?_, ?_⟩
  · rw [h]
    simp [State.add_response]
  · rw [h]
    simp [State.add_response]

/-- Witness for C5: cancelling after one streamed delta, with one more
delta still in flight. -/
theorem cancel_on_escape_witness :
    processResponse turnState
        ([REvent.delta "He".toList false] ++ REvent.tick true
          :: [REvent.delta "llo".toList false])
      = ({ processResponse turnState [REvent.delta "He".toList false] with
            input_mode := InputMode.Normal }).add_response "Request cancelled".toList ∧
    (processResponse turnState
        ([REvent.delta "He".toList false] ++ REvent.tick true
          :: [REvent.delta "llo".toList false])).messages
      = (processResponse turnState [REvent.delta "He".toList false]).messages
          ++ [("assistant".toList, "Request cancelled".toList)] ∧
    (processResponse turnState
        ([REvent.delta "He".toList false] ++ REvent.tick true
          :: [REvent.delta "llo".toList false])).input_mode = InputMode.Normal :=
  cancel_on_escape turnState [REvent.delta "He".toList false]
    [REvent.delta "llo".toList false] rfl (by decide)

/-- C5 counterexample: Escape before any delta, in the reachable
start-of-turn state, appends `Request cancelled` and ends the turn, but the
`("system", "Generating...")` placeholder (and the empty assistant stub)
remain in the log — the placeholder is neither replaced nor removed. -/
theorem cancel_keeps_placeholder_counterexample :
    (processResponse turnState [REvent.tick true]).messages
      = [("user".toList, "hi".toList),
         ("system".toList, "Generating...".toList),
         ("assistant".toList, []),
         ("assistant".toList, "Request cancelled".toList)] ∧
    ("system".toList, "Generating...".toList)
      ∈ (processResponse turnState [REvent.tick true]).messages := by
  decide

/-- A newline-free sequence has no complete lines, only a remainder. -/
theorem splitComplete_no_newline (s : Str) (h : '\n' ∉ s) : splitComplete s = ([], s) := by
  induction s with
  | nil => rfl
  | cons c cs ih =>
    by_cases hc : c = '\n'
    · subst hc
      exact absurd (List.mem_cons_self _ _) h
    · have hcs : '\n' ∉ cs := fun hm => h (List.mem_cons_of_mem _ hm)
      simp [splitComplete, ih hcs, hc]

/-- A newline right after a newline-free line closes exactly that line. -/
theorem splitComplete_newline (l rest : Str) (h : '\n' ∉ l) :
    splitComplete (l ++ '\n' :: rest)
      = (l :: (splitComplete rest).1, (splitComplete rest).2) := by
  induction l with
  | nil => simp [splitComplete]
  | cons c cs ih =>
    have hc : ¬ c = '\n' := by
      intro hc; subst hc; exact h (List.mem_cons_self _ _)
    have hcs : '\n' ∉ cs := fun hm => h (List.mem_cons_of_mem _ hm)
    simp [splitComplete, ih hcs, hc]

/-- Complete-line splitting distributes over concatenation: the remainder
of the first part merges into the first line of the second part. -/
theorem splitComplete_append (s t : Str) :
    splitComplete (s ++ t)
      = ((splitComplete s).1 ++ (splitComplete ((splitComplete s).2 ++ t)).1,
         (splitComplete ((splitComplete s).2 ++ t)).2) := by
  induction s with
  | nil => simp [splitComplete]
  | cons c cs ih =>
    by_cases hc : c = '\n'
    · subst hc
      simp [splitComplete, ih]
    · cases h1 : (splitComplete cs).1 with
      | nil =>
        cases h2 : (splitComplete ((splitComplete cs).2 ++ t)).1 with
        | nil => simp [splitComplete, ih, h1, h2, hc]
        | cons l ls => simp [splitComplete, ih, h1, h2, hc]
      | cons l ls => simp [splitComplete, ih, h1, hc]

/-- The trailing remainder never contains a newline. -/
theorem splitComplete_snd_no_newline (s : Str) : '\n' ∉ (splitComplete s).2 := by
  induction s with
  | nil => simp [splitComplete]
  | cons c cs ih =>
    by_cases hc : c = '\n'
    · subst hc
      simpa [splitComplete] using ih
    · cases h1 : (splitComplete cs).1 with
      | nil =>
        simp only [splitComplete, h1]
        simp only [if_neg hc]
        intro hm
        rcases List.mem_cons.mp hm with hm | hm
        · exact hc hm.symm
        · exact ih hm
      | cons l ls => simpa [splitComplete, h1, hc] using ih

/-- Per-line delta extraction over an appended line list: a done sentinel
in the first part discards the second part entirely. -/
theorem lineDeltas_append (parse : Str → Option JValue) (ls1 ls2 : List Str) :
    lineDeltas parse (ls1 ++ ls2)
      = (if (lineDeltas parse ls1).2 then (lineDeltas parse ls1).1
         else (lineDeltas parse ls1).1 ++ (lineDeltas parse ls2).1,
         if (lineDeltas parse ls1).2 then true else (lineDeltas parse ls2).2) := by
  induction ls1 with
  | nil => simp [lineDeltas]
  | cons l ls ih =>
    cases hp : parse l with
    | none => simpa [lineDeltas, hp] using ih
    | some j =>
      by_cases hd : doneFlag j
      · simp [lineDeltas, hp, hd]
      · simp only [List.cons_append, lineDeltas, hp, hd, Bool.false_eq_true, if_false,
          List.append_eq]
        rw [ih]
        cases hb : (lineDeltas parse ls).2 <;> simp [hb, List.append_assoc]

/-- The inner drain loop of the streaming path emits exactly the per-line
deltas of the buffer's complete lines, stops on the done sentinel, and —
when no sentinel was seen — retains exactly the incomplete remainder. -/
theorem processBufGo_spec (parse : Str → Option JValue) (buf : Str) : ∀ lineAcc : Str,
    '\n' ∉ lineAcc →
    (processBufGo parse lineAcc buf).1
      = (lineDeltas parse (splitComplete (lineAcc ++ buf)).1).1 ∧
    (processBufGo parse lineAcc buf).2.2
      = (lineDeltas parse (splitComplete (lineAcc ++ buf)).1).2 ∧
    ((processBufGo parse lineAcc buf).2.2 = false →
      (processBufGo parse lineAcc buf).2.1 = (splitComplete (lineAcc ++ buf)).2 ∧
      '\n' ∉ (processBufGo parse lineAcc buf).2.1) := by
  induction buf with
  | nil =>
    intro lineAcc h
    rw [List.append_nil, splitComplete_no_newline lineAcc h]
    exact ⟨rfl, rfl, fun _ => ⟨rfl, h⟩⟩
  | cons c cs ih =>
    intro lineAcc h
    by_cases hc : c = '\n'
    · subst hc
      rw [splitComplete_newline lineAcc cs h]
      cases hp : parse lineAcc with
      | none =>
        have hih := ih [] (List.not_mem_nil _)
        rw [List.nil_append] at hih
        simpa [processBufGo, hp, lineDeltas] using hih
      | some j =>
        by_cases hd : doneFlag j
        · simp [processBufGo, hp, hd, lineDeltas]
        · have hih := ih [] (List.not_mem_nil _)
          rw [List.nil_append] at hih
          obtain ⟨e1, e2, e3⟩ := hih
          simp only [processBufGo, reduceIte, ite_true, hp, hd, lineDeltas,
            Bool.false_eq_true, if_false]
          exact ⟨by rw [e1], e2, e3⟩
    · have h' : '\n' ∉ lineAcc ++ [c] := by
        intro hm
        rcases List.mem_append.mp hm with hm | hm
        · exact h hm
        · rcases List.mem_singleton.mp hm with hm
          exact hc hm.symm
      have hih := ih (lineAcc ++ [c]) h'
      rw [← List.append_cons] at hih
      simpa [processBufGo, hc] using hih

/-- The full streaming loop emits exactly the per-line deltas of the
concatenated chunk bytes' complete lines, ending early on the done
sentinel. -/
theorem processStreamGo_spec (parse : Str → Option JValue) (chunks : List Str) :
    ∀ buf : Str, '\n' ∉ buf →
    processStreamGo parse buf chunks
      = lineDeltas parse (splitComplete (buf ++ chunks.flatten)).1 := by
  induction chunks with
  | nil =>
    intro buf h
    rw [List.flatten_nil, List.append_nil, splitComplete_no_newline buf h]
    rfl
  | cons chunk chunks ih =>
    intro buf h
    obtain ⟨e1, e2, e3⟩ := processBufGo_spec parse (buf ++ chunk) [] (List.not_mem_nil _)
    rw [List.nil_append] at e1 e2 e3
    have hflat : buf ++ (chunk :: chunks).flatten = (buf ++ chunk) ++ chunks.flatten := by
      rw [List.flatten_cons, List.append_assoc]
    rw [hflat, splitComplete_append (buf ++ chunk) chunks.flatten,
      lineDeltas_append]
    simp only [processStreamGo, processBuffer]
    by_cases hdone : (processBufGo parse [] (buf ++ chunk)).2.2 = true
    · have hd2 : (lineDeltas parse (splitComplete (buf ++ chunk)).1).2 = true := by
        rw [← e2]; exact hdone
      simp [hdone, hd2, e1]
    · have hfalse : (processBufGo parse [] (buf ++ chunk)).2.2 = false := by
        simpa using hdone
      have hd2 : (lineDeltas parse (splitComplete (buf ++ chunk)).1).2 = false := by
        rw [← e2]; exact hfalse
      obtain ⟨er, hr⟩ := e3 hfalse
      have hihr := ih (processBufGo parse [] (buf ++ chunk)).2.1 hr
      rw [er] at hihr
      simp [hfalse, hd2, e1, er, hihr]

/-- C1: the streaming driver emits one delta per complete NDJSON line whose
JSON carries a string `message.content`, in arrival order; a `done == true`
line ends ingestion immediately after its delta, discarding the rest of the
buffer and all later chunks (this is `lineDeltas` over the complete lines
of the concatenated body).  In particular, Scenario B's two chunks emit
exactly `"He"` then `"llo"` and ingestion ends with the second line. -/
theorem stream_ingestion_spec :
    (∀ (parse : Str → Option JValue) (chunks : List Str),
      process_stream parse chunks = lineDeltas parse (completeLines chunks.flatten)) ∧
    process_stream miniParse [chunkB1, chunkB2]
      = (["He".toList, "llo".toList], true) := by
  constructor
  · intro parse chunks
    have h := processStreamGo_spec parse chunks [] (List.not_mem_nil _)
    rw [List.nil_append] at h
    exact h
  · rfl

/-- Joining newline-free lines and re-splitting recovers exactly them. -/
theorem joinLines_splitComplete (ls : List Str) (h : ∀ x ∈ ls, '\n' ∉ x) :
    splitComplete (joinLines ls) = (ls, []) := by
  induction ls with
  | nil => rfl
  | cons x xs ih =>
    have hx := h x (List.mem_cons_self _ _)
    have hxs : ∀ y ∈ xs, '\n' ∉ y := fun y hm => h y (List.mem_cons_of_mem _ hm)
    show splitComplete (x ++ '\n' :: joinLines xs) = (x :: xs, [])
    rw [splitComplete_newline _ _ hx, ih hxs]

/-- C9: a complete NDJSON line that fails to parse is silently skipped — it
contributes no delta and no error, does not end ingestion, and processing
continues with the next line: removing the malformed line from the stream
leaves the emitted deltas and the termination flag unchanged, at the line
level and through the full streaming loop. -/
theorem malformed_line_skipped (parse : Str → Option JValue) (ls1 ls2 : List Str) (l : Str)
    (hparse : parse l = none) (h1 : ∀ x ∈ ls1, '\n' ∉ x) (h2 : ∀ x ∈ ls2, '\n' ∉ x)
    (hl : '\n' ∉ l) :
    lineDeltas parse (ls1 ++ l :: ls2) = lineDeltas parse (ls1 ++ ls2) ∧
    process_stream parse [joinLines (ls1 ++ l :: ls2)]
      = process_stream parse [joinLines (ls1 ++ ls2)] := by
  have hstep : lineDeltas parse (l :: ls2) = lineDeltas parse ls2 := by
    simp [lineDeltas, hparse]
  have hfirst : lineDeltas parse (ls1 ++ l :: ls2) = lineDeltas parse (ls1 ++ ls2) := by
    rw [lineDeltas_append, lineDeltas_append, hstep]
  refine ⟨hfirst, ?_⟩
  have hA : ∀ x ∈ ls1 ++ l :: ls2, '\n' ∉ x := by
    intro x hx
    rcases List.mem_append.mp hx with hx | hx
    · exact h1 x hx
    · rcases List.mem_cons.mp hx with hx | hx
      · rw [hx]; exact hl
      · exact h2 x hx
  have hB : ∀ x ∈ ls1 ++ ls2, '\n' ∉ x := by
    intro x hx
    rcases List.mem_append.mp hx with hx | hx
    · exact h1 x hx
    · exact h2 x hx
  have eA := processStreamGo_spec parse [joinLines (ls1 ++ l :: ls2)] []
    (List.not_mem_nil _)
  have eB := processStreamGo_spec parse [joinLines (ls1 ++ ls2)] [] (List.not_mem_nil _)
  simp only [List.nil_append, List.flatten_cons, List.flatten_nil, List.append_nil] at eA eB
  rw [joinLines_splitComplete _ hA] at eA
  rw [joinLines_splitComplete _ hB] at eB
  show processStreamGo parse [] [joinLines (ls1 ++ l :: ls2)]
    = processStreamGo parse [] [joinLines (ls1 ++ ls2)]
  rw [eA, eB]
  exact hfirst

/-- Witness for C9: a malformed line sitting between Scenario B's content
line and its done line changes nothing. -/
theorem malformed_line_skipped_witness :
    lineDeltas miniParse ([lineGood] ++ lineBad :: [lineDone])
      = lineDeltas miniParse ([lineGood] ++ [lineDone]) ∧
    process_stream miniParse [joinLines ([lineGood] ++ lineBad :: [lineDone])]
      = process_stream miniParse [joinLines ([lineGood] ++ [lineDone])] :=
  malformed_line_skipped miniParse [lineGood] [lineDone] lineBad rfl
    (by decide) (by decide) (by decide)

/-- Every character counts at least one column. -/
theorem charWidth_pos (c : Char) : 1 ≤ charWidth c := by
  unfold charWidth width_cjk
  split_ifs <;> simp

/-- Width is additive over concatenation. -/
theorem strWidth_append (a b : Str) : strWidth (a ++ b) = strWidth a + strWidth b := by
  simp [strWidth]

/-- Width is additive over span concatenation. -/
theorem spansWidth_append (a b : List Span) :
    spansWidth (a ++ b) = spansWidth a + spansWidth b := by
  simp [spansWidth]

/-- Trimming trailing whitespace never increases the width. -/
theorem trimEnd_strWidth_le (s : Str) : strWidth (trimEnd s) ≤ strWidth s := by
  have hsub : List.Sublist (s.reverse.dropWhile Char.isWhitespace) s.reverse :=
    List.dropWhile_sublist _
  have hmap : List.Sublist ((s.reverse.dropWhile Char.isWhitespace).map charWidth)
      (s.reverse.map charWidth) := hsub.map _
  have hsum := List.Sublist.sum_le_sum hmap (fun a _ => Nat.zero_le a)
  calc strWidth (trimEnd s)
      = ((s.reverse.dropWhile Char.isWhitespace).map charWidth).sum := by
        simp [trimEnd, strWidth, List.map_reverse, List.sum_reverse]
    _ ≤ (s.reverse.map charWidth).sum := hsum
    _ = strWidth s := by simp [strWidth, List.map_reverse, List.sum_reverse]

/-- The chunk taken by `split_at_width` fits in the budget. -/
theorem split_at_width_fst_le (t : Str) : ∀ w : Nat,
    strWidth (split_at_width t w).1 ≤ w := by
  induction t with
  | nil => intro w; simp [split_at_width, strWidth]
  | cons c cs ih =>
    intro w
    simp only [split_at_width]
    split_ifs with hcw
    · simp [strWidth]
    · have := ih (w - charWidth c)
      simp only [strWidth, List.map_cons, List.sum_cons]
      have hle : charWidth c ≤ w := Nat.le_of_not_lt hcw
      have : strWidth (split_at_width cs (w - charWidth c)).1 ≤ w - charWidth c := ih _
      simp only [strWidth] at this
      omega

/-- Flushing moves the current line into the output and empties it. -/
theorem flush_line_snd (l : List Line) (c : List Span) : (flush_line l c).2 = [] := by
  unfold flush_line
  split <;> rfl

/-- Flushing preserves a per-line bound when the current line satisfies it. -/
theorem flush_line_width_inv (w : Nat) (l : List Line) (c : List Span)
    (h1 : ∀ x ∈ l, lineWidth x ≤ w) (h2 : spansWidth c ≤ w) :
    ∀ x ∈ (flush_line l c).1, lineWidth x ≤ w := by
  unfold flush_line
  split
  · exact h1
  · intro x hx
    rcases List.mem_append.mp hx with hx | hx
    · exact h1 x hx
    · rcases List.mem_singleton.mp hx with rfl
      exact h2

/-- The wrap loop at list level 0 keeps every produced line, and the
current line, within one column of the width budget — the one extra column
is the separating space pushed between adjacent spans. -/
theorem addTextLoop_width_inv (width : Nat) (style : Style) : ∀ (fuel : Nat) (text : Str)
    (acc : List Line × List Span),
    (∀ l ∈ acc.1, lineWidth l ≤ width + 1) → spansWidth acc.2 ≤ width + 1 →
    (∀ l ∈ (addTextLoop width 0 style fuel acc text).1, lineWidth l ≤ width + 1) ∧
    spansWidth (addTextLoop width 0 style fuel acc text).2 ≤ width + 1 := by
  intro fuel
  induction fuel with
  | zero =>
    intro text acc h1 h2
    cases text with
    | nil => exact ⟨h1, h2⟩
    | cons c cs => exact ⟨h1, h2⟩
  | succ fuel ih =>
    intro text acc h1 h2
    cases text with
    | nil => exact ⟨h1, h2⟩
    | cons c cs =>
      obtain ⟨lines, cur⟩ := acc
      simp only [addTextLoop, Nat.lt_irrefl, if_false, Nat.sub_zero, reduceIte]
      by_cases h0 : width - spansWidth cur = 0
      · simp only [if_pos h0]
        exact ih _ _ (flush_line_width_inv _ _ _ h1 h2) (by simp [flush_line_snd, spansWidth])
      · simp only [if_neg h0]
        have hchunk : strWidth (split_at_width (c :: cs) (width - spansWidth cur)).1
            ≤ width - spansWidth cur := split_at_width_fst_le _ _
        have hcur : spansWidth cur < width := by omega
        have htrim : strWidth (trimEnd
            (split_at_width (c :: cs) (width - spansWidth cur)).1)
            ≤ width - spansWidth cur :=
          le_trans (trimEnd_strWidth_le _) hchunk
        have hone : spansWidth [Span.raw [' ']] = 1 := rfl
        have hnew : spansWidth [Span.mk (trimEnd
            (split_at_width (c :: cs) (width - spansWidth cur)).1) style]
            = strWidth (trimEnd
                (split_at_width (c :: cs) (width - spansWidth cur)).1) := by
          simp [spansWidth]
        have hp : (∀ l ∈ (if (split_at_width (c :: cs) (width - spansWidth cur)).1 = []
              then (lines, cur)
              else
                ((lines, cur).1,
                  (if cur ≠ [] ∧ ¬ endsWithSpace cur then cur ++ [Span.raw [' ']] else cur)
                    ++ [Span.mk
                          (trimEnd (split_at_width (c :: cs) (width - spansWidth cur)).1)
                          style])).1, lineWidth l ≤ width + 1) ∧
            spansWidth (if (split_at_width (c :: cs) (width - spansWidth cur)).1 = []
              then (lines, cur)
              else
                ((lines, cur).1,
                  (if cur ≠ [] ∧ ¬ endsWithSpace cur then cur ++ [Span.raw [' ']] else cur)
                    ++ [Span.mk
                          (trimEnd (split_at_width (c :: cs) (width - spansWidth cur)).1)
                          style])).2 ≤ width + 1 := by
          split_ifs with hemp hsp
          · exact ⟨h1, h2⟩
          · refine ⟨h1, ?_⟩
            rw [spansWidth_append, spansWidth_append, hone, hnew]
            omega
          · refine ⟨h1, ?_⟩
            rw [spansWidth_append, hnew]
            omega
        by_cases hrest : (split_at_width (c :: cs) (width - spansWidth cur)).2 = []
        · simp only [if_pos hrest]
          exact hp
        · simp only [if_neg hrest]
          exact ih _ _ (flush_line_width_inv _ _ _ hp.1 hp.2)
            (by simp [flush_line_snd, spansWidth])

/-- `add_text_to_line` at list level 0 preserves the one-extra-column
bound: the pre-loop indent span is never pushed. -/
theorem add_text_to_line_width_inv (fuel width : Nat) (style : Style)
    (lines : List Line) (cur : List Span) (text : Str)
    (h1 : ∀ l ∈ lines, lineWidth l ≤ width + 1) (h2 : spansWidth cur ≤ width + 1) :
    (∀ l ∈ (add_text_to_line fuel width 0 style lines cur text).1,
      lineWidth l ≤ width + 1) ∧
    spansWidth (add_text_to_line fuel width 0 style lines cur text).2 ≤ width + 1 := by
  unfold add_text_to_line
  simp only [Nat.lt_irrefl, if_false, and_false, reduceIte]
  exact addTextLoop_width_inv width style fuel text (lines, cur) h1 h2

/-- Processing one plain event preserves the width invariant. -/
theorem processEvent_width_inv (fuel width : Nat) (σ : RState) (e : MdEvent)
    (hplain : plainEvent e = true) (hinv : widthInvState width σ) :
    widthInvState width (processEvent fuel width σ e) := by
  obtain ⟨h1, h2, hlvl, hcode, hcc⟩ := hinv
  cases e with
  | text t =>
    have hres := add_text_to_line_width_inv fuel width σ.current_style
      σ.lines σ.current_line t h1 h2
    simp only [processEvent, hcode, Bool.false_eq_true, if_false, hlvl]
    exact ⟨hres.1, hres.2, rfl, rfl, hcc⟩
  | softBreak =>
    have hres := add_text_to_line_width_inv fuel width σ.current_style
      σ.lines σ.current_line [' '] h1 h2
    simp only [processEvent, hcode, Bool.false_eq_true, if_false, hlvl]
    exact ⟨hres.1, hres.2, rfl, rfl, hcc⟩
  | codeSpan t =>
    have hres := add_text_to_line_width_inv fuel width
      { fg := some Color.Yellow, italic := true } σ.lines σ.current_line
      ('\x60' :: (t ++ ['\x60'])) h1 h2
    simp only [processEvent, hlvl]
    exact ⟨hres.1, hres.2, rfl, hcode, hcc⟩
  | hardBreak =>
    simp only [processEvent, hcode, Bool.false_eq_true, if_false]
    exact ⟨flush_line_width_inv _ _ _ h1 h2, by simp [flush_line_snd, spansWidth],
      hlvl, rfl, hcc⟩
  | listEnd =>
    simp only [processEvent]
    refine ⟨flush_line_width_inv _ _ _ h1 h2, by simp [flush_line_snd, spansWidth],
      ?_, hcode, hcc⟩
    simp [hlvl]
  | itemEnd =>
    simp only [processEvent]
    exact ⟨flush_line_width_inv _ _ _ h1 h2, by simp [flush_line_snd, spansWidth],
      hlvl, hcode, hcc⟩
  | paraStart =>
    simp only [processEvent]
    split
    · refine ⟨?_, h2, hlvl, hcode, hcc⟩
      intro x hx
      rcases List.mem_append.mp hx with hx | hx
      · exact h1 x hx
      · rcases List.mem_singleton.mp hx with rfl
        simp [lineWidth, spansWidth]
    · exact ⟨h1, h2, hlvl, hcode, hcc⟩
  | paraEnd =>
    simp only [processEvent]
    refine ⟨?_, by simp [flush_line_snd, spansWidth], hlvl, hcode, hcc⟩
    intro x hx
    rcases List.mem_append.mp hx with hx | hx
    · exact flush_line_width_inv _ _ _ h1 h2 x hx
    · rcases List.mem_singleton.mp hx with rfl
      simp [lineWidth, spansWidth]
  | emphStart => exact ⟨h1, h2, hlvl, hcode, hcc⟩
  | emphEnd => exact ⟨h1, h2, hlvl, hcode, hcc⟩
  | strongStart => exact ⟨h1, h2, hlvl, hcode, hcc⟩
  | strongEnd => exact ⟨h1, h2, hlvl, hcode, hcc⟩
  | codeBlockEnd =>
    refine ⟨?_, h2, hlvl, rfl, rfl⟩
    have hhl : highlight_code σ.code_block_content σ.code_block_lang = [] := by
      rw [hcc]; rfl
    simp only [processEvent, hhl, List.append_nil]
    exact h1
  | otherEvent => exact ⟨h1, h2, hlvl, hcode, hcc⟩
  | listStart => exact absurd hplain (by simp [plainEvent])
  | itemStart => exact absurd hplain (by simp [plainEvent])
  | codeBlockStart lang => exact absurd hplain (by simp [plainEvent])

/-- Folding plain events preserves the width invariant. -/
theorem foldl_width_inv (fuel width : Nat) : ∀ (events : List MdEvent) (σ : RState),
    (∀ e ∈ events, plainEvent e = true) → widthInvState width σ →
    widthInvState width (events.foldl (processEvent fuel width) σ) := by
  intro events
  induction events with
  | nil => intro σ _ h; exact h
  | cons e es ih =>
    intro σ hp h
    exact ih _ (fun x hx => hp x (List.mem_cons_of_mem _ hx))
      (processEvent_width_inv fuel width σ e (hp e (List.mem_cons_self _ _)) h)

/-- Trimming trailing blank lines keeps only lines of the original list. -/
theorem mem_of_mem_dropTrailing (ls : List Line) (l : Line)
    (h : l ∈ dropTrailingEmptyLines ls) : l ∈ ls := by
  unfold dropTrailingEmptyLines at h
  rw [List.mem_reverse] at h
  have h2 := (List.dropWhile_sublist (fun (x : Line) => x.spans.isEmpty)).subset h
  exact List.mem_reverse.mp h2

/-- C3 (amended): for markdown inputs free of lists and fenced code blocks,
every rendered line's display width is at most `width + 1`.  The renderer
does not keep the claimed bound `width` itself: the separating space that
`add_text_to_line` inserts between adjacent spans is pushed after the
remaining budget was computed, so a line can exceed the requested width by
exactly that one column (see the counterexample). -/
theorem render_width_bound (fuel : Nat) (events : List MdEvent) (width : Nat)
    (hplain : ∀ e ∈ events, plainEvent e = true) :
    ∀ l ∈ render_markdown fuel events width, lineWidth l ≤ width + 1 := by
  intro l hl
  have hinv : widthInvState width (events.foldl (processEvent fuel width) RState.init) :=
    foldl_width_inv fuel width events RState.init hplain
      ⟨by simp [RState.init], by simp [RState.init, spansWidth], rfl, rfl, rfl⟩
  obtain ⟨h1, h2, -, -, -⟩ := hinv
  simp only [render_markdown] at hl
  have hl2 := mem_of_mem_dropTrailing _ _ hl
  exact flush_line_width_inv _ _ _ h1 h2 l hl2

/-- Witness for the amended C3 bound at the counterexample input: the
produced width-6 line stays within `5 + 1`. -/
theorem render_width_bound_witness :
    lineWidth ⟨[Span.mk "ab".toList {}, Span.raw [' '],
      Span.mk "cde".toList { italic := true }]⟩ ≤ 5 + 1 :=
  render_width_bound 32 cexEvents 5 (by decide) _ (by decide)

/-- C3 counterexample: rendering the markdown `ab *cde*` (its pulldown
event stream) at width 5 produces one line of display width 6 — the
claimed bound `width` is exceeded by the separating-space column. -/
theorem render_width_counterexample :
    (render_markdown 32 cexEvents 5).map lineWidth = [6] := by
  decide

/-- Spans are additive over line-list concatenation. -/
theorem allSpans_append (a b : List Line) : allSpans (a ++ b) = allSpans a ++ allSpans b := by
  simp [allSpans]

/-- Flushing moves the current line's spans into the output unchanged. -/
theorem flush_line_spans (l : List Line) (c : List Span) :
    allSpans (flush_line l c).1 ++ (flush_line l c).2 = allSpans l ++ c := by
  unfold flush_line
  split
  · rename_i hc
    simp [allSpans, hc]
  · simp [allSpans]

/-- Membership extends over a right-appended extra segment. -/
theorem mem_append_extend {α : Type} {x : α} {a b c : List α} (h : x ∈ a ++ b) :
    x ∈ a ++ (b ++ c) := by
  rcases List.mem_append.mp h with h | h
  · exact List.mem_append_left _ h
  · exact List.mem_append_right _ (List.mem_append_left _ h)

/-- The wrap loop never discards a span already accumulated. -/
theorem addTextLoop_spans_mono (width listLevel : Nat) (style : Style) :
    ∀ (fuel : Nat) (text : Str) (acc : List Line × List Span) (sp : Span),
    sp ∈ allSpans acc.1 ++ acc.2 →
    sp ∈ allSpans (addTextLoop width listLevel style fuel acc text).1
      ++ (addTextLoop width listLevel style fuel acc text).2 := by
  intro fuel
  induction fuel with
  | zero =>
    intro text acc sp h
    cases text with
    | nil => exact h
    | cons c cs => exact h
  | succ fuel ih =>
    intro text acc sp h
    cases text with
    | nil => exact h
    | cons c cs =>
      obtain ⟨lines, cur⟩ := acc
      simp only [addTextLoop]
      have hflush : ∀ extraCond : Bool, sp ∈
          allSpans (flush_line lines cur).1 ++ ((flush_line lines cur).2
            ++ (if extraCond then [Span.raw (List.replicate
                  (if 0 < listLevel then 2 * listLevel else 0) ' ')] else [])) := by
        intro extraCond
        apply mem_append_extend
        rw [flush_line_spans]
        exact h
      by_cases h0 : width - (if 0 < listLevel then 2 * listLevel else 0)
          - spansWidth cur = 0
      · simp only [if_pos h0]
        apply ih
        by_cases hll : 0 < listLevel
        · simpa [hll] using hflush true
        · simpa [hll] using hflush false
      · simp only [if_neg h0]
        by_cases hP1 : (split_at_width (c :: cs)
            (width - (if 0 < listLevel then 2 * listLevel else 0) - spansWidth cur)).1 = []
        · simp only [if_pos hP1]
          by_cases hP2 : (split_at_width (c :: cs)
              (width - (if 0 < listLevel then 2 * listLevel else 0) - spansWidth cur)).2 = []
          · simp only [if_pos hP2]
            exact h
          · simp only [if_neg hP2]
            apply ih
            by_cases hll : 0 < listLevel
            · simpa [hll] using hflush true
            · simpa [hll] using hflush false
        · simp only [if_neg hP1]
          have hpushmem : sp ∈ allSpans lines ++
              ((if cur ≠ [] ∧ ¬ endsWithSpace cur then cur ++ [Span.raw [' ']] else cur)
                ++ [Span.mk (trimEnd (split_at_width (c :: cs)
                    (width - (if 0 < listLevel then 2 * listLevel else 0)
                      - spansWidth cur)).1) style]) := by
            rcases List.mem_append.mp h with hs | hs
            · exact List.mem_append_left _ hs
            · refine List.mem_append_right _ (List.mem_append_left _ ?_)
              by_cases hsp2 : cur ≠ [] ∧ ¬ endsWithSpace cur
              · simp only [if_pos hsp2]
                exact List.mem_append_left _ hs
              · simp only [if_neg hsp2]
                exact hs
          have hflush2 : ∀ extraCond : Bool, sp ∈
              allSpans (flush_line lines
                ((if cur ≠ [] ∧ ¬ endsWithSpace cur then cur ++ [Span.raw [' ']] else cur)
                  ++ [Span.mk (trimEnd (split_at_width (c :: cs)
                      (width - (if 0 < listLevel then 2 * listLevel else 0)
                        - spansWidth cur)).1) style])).1
              ++ ((flush_line lines
                ((if cur ≠ [] ∧ ¬ endsWithSpace cur then cur ++ [Span.raw [' ']] else cur)
                  ++ [Span.mk (trimEnd (split_at_width (c :: cs)
                      (width - (if 0 < listLevel then 2 * listLevel else 0)
                        - spansWidth cur)).1) style])).2
                ++ (if extraCond then [Span.raw (List.replicate
                      (if 0 < listLevel then 2 * listLevel else 0) ' ')] else [])) := by
            intro extraCond
            apply mem_append_extend
            rw [flush_line_spans]
            exact hpushmem
          by_cases hP2 : (split_at_width (c :: cs)
              (width - (if 0 < listLevel then 2 * listLevel else 0) - spansWidth cur)).2 = []
          · simp only [if_pos hP2]
            exact hpushmem
          · simp only [if_neg hP2]
            apply ih
            by_cases hll : 0 < listLevel
            · simpa [hll] using hflush2 true
            · simpa [hll] using hflush2 false

/-- `add_text_to_line` never discards a span already accumulated. -/
theorem add_text_to_line_spans_mono (fuel width listLevel : Nat) (style : Style)
    (lines : List Line) (cur : List Span) (text : Str) (sp : Span)
    (h : sp ∈ allSpans lines ++ cur) :
    sp ∈ allSpans (add_text_to_line fuel width listLevel style lines cur text).1
      ++ (add_text_to_line fuel width listLevel style lines cur text).2 := by
  unfold add_text_to_line
  apply addTextLoop_spans_mono
  by_cases hc : cur = [] ∧ 0 < listLevel
  · simp only [if_pos hc]
    rcases List.mem_append.mp h with hs | hs
    · exact List.mem_append_left _ hs
    · rw [hc.1] at hs
      exact absurd hs (List.not_mem_nil _)
  · simp only [if_neg hc]
    exact h

/-- A single renderer event never discards an already-produced span. -/
theorem processEvent_spans_mono (fuel width : Nat) (σ : RState) (e : MdEvent) (sp : Span)
    (h : sp ∈ stateSpans σ) : sp ∈ stateSpans (processEvent fuel width σ e) := by
  unfold stateSpans at h
  cases e with
  | text t =>
    simp only [processEvent]
    split
    · exact h
    · exact add_text_to_line_spans_mono _ _ _ _ _ _ _ _ h
  | softBreak =>
    simp only [processEvent]
    split
    · exact h
    · exact add_text_to_line_spans_mono _ _ _ _ _ _ _ _ h
  | codeSpan t =>
    simp only [processEvent]
    exact add_text_to_line_spans_mono _ _ _ _ _ _ _ _ h
  | hardBreak =>
    simp only [processEvent]
    split
    · exact h
    · show sp ∈ allSpans (flush_line σ.lines σ.current_line).1
        ++ (flush_line σ.lines σ.current_line).2
      rw [flush_line_spans]
      exact h
  | listStart =>
    show sp ∈ allSpans (flush_line σ.lines σ.current_line).1
      ++ (flush_line σ.lines σ.current_line).2
    rw [flush_line_spans]
    exact h
  | listEnd =>
    show sp ∈ allSpans (flush_line σ.lines σ.current_line).1
      ++ (flush_line σ.lines σ.current_line).2
    rw [flush_line_spans]
    exact h
  | itemEnd =>
    show sp ∈ allSpans (flush_line σ.lines σ.current_line).1
      ++ (flush_line σ.lines σ.current_line).2
    rw [flush_line_spans]
    exact h
  | itemStart =>
    show sp ∈ allSpans (flush_line σ.lines σ.current_line).1
      ++ ((flush_line σ.lines σ.current_line).2 ++ _)
    apply mem_append_extend
    rw [flush_line_spans]
    exact h
  | codeBlockStart lang =>
    show sp ∈ allSpans (flush_line σ.lines σ.current_line).1
      ++ (flush_line σ.lines σ.current_line).2
    rw [flush_line_spans]
    exact h
  | codeBlockEnd =>
    show sp ∈ allSpans (σ.lines ++ highlight_code σ.code_block_content σ.code_block_lang)
      ++ σ.current_line
    rw [allSpans_append]
    rcases List.mem_append.mp h with hs | hs
    · exact List.mem_append_left _ (List.mem_append_left _ hs)
    · exact List.mem_append_right _ hs
  | paraStart =>
    simp only [processEvent]
    split
    · show sp ∈ allSpans (σ.lines ++ [⟨[]⟩]) ++ σ.current_line
      rw [allSpans_append]
      rcases List.mem_append.mp h with hs | hs
      · exact List.mem_append_left _ (List.mem_append_left _ hs)
      · exact List.mem_append_right _ hs
    · exact h
  | paraEnd =>
    show sp ∈ allSpans ((flush_line σ.lines σ.current_line).1 ++ [⟨[]⟩])
      ++ (flush_line σ.lines σ.current_line).2
    rw [allSpans_append]
    have hbase : sp ∈ allSpans (flush_line σ.lines σ.current_line).1
        ++ (flush_line σ.lines σ.current_line).2 := by
      rw [flush_line_spans]; exact h
    rcases List.mem_append.mp hbase with hs | hs
    · exact List.mem_append_left _ (List.mem_append_left _ hs)
    · exact List.mem_append_right _ hs
  | emphStart => exact h
  | emphEnd => exact h
  | strongStart => exact h
  | strongEnd => exact h
  | otherEvent => exact h

/-- Folding events never discards an already-produced span. -/
theorem foldl_spans_mono (fuel width : Nat) : ∀ (events : List MdEvent) (σ : RState)
    (sp : Span), sp ∈ stateSpans σ →
    sp ∈ stateSpans (events.foldl (processEvent fuel width) σ) := by
  intro events
  induction events with
  | nil => intro σ sp h; exact h
  | cons e es ih =>
    intro σ sp h
    exact ih _ sp (processEvent_spans_mono fuel width σ e sp h)

/-- Trailing blank lines carry no spans, so trimming them keeps all spans. -/
theorem dropTrailing_allSpans (ls : List Line) :
    allSpans (dropTrailingEmptyLines ls) = allSpans ls := by
  induction ls using List.reverseRecOn with
  | nil => rfl
  | append_singleton l a ih =>
    by_cases ha : a.spans.isEmpty
    · have hdrop : dropTrailingEmptyLines (l ++ [a]) = dropTrailingEmptyLines l := by
        unfold dropTrailingEmptyLines
        rw [List.reverse_append]
        simp [ha]
      have hempty : a.spans = [] := by
        simpa [List.isEmpty_iff] using ha
      rw [hdrop, ih, allSpans_append]
      simp [allSpans, hempty]
    · have hdrop : dropTrailingEmptyLines (l ++ [a]) = l ++ [a] := by
        unfold dropTrailingEmptyLines
        rw [List.reverse_append]
        simp [ha]
      rw [hdrop]

/-- Every span still held in the final renderer state reaches the output. -/
theorem render_spans_of_state (fuel width : Nat) (events : List MdEvent) (sp : Span)
    (h : sp ∈ stateSpans (events.foldl (processEvent fuel width) RState.init)) :
    sp ∈ allSpans (render_markdown fuel events width) := by
  simp only [render_markdown]
  rw [dropTrailing_allSpans]
  have hfl := flush_line_spans (events.foldl (processEvent fuel width) RState.init).lines
    (events.foldl (processEvent fuel width) RState.init).current_line
  rw [flush_line_snd, List.append_nil] at hfl
  unfold stateSpans at h
  rw [← hfl] at h
  exact h

/-- A chunk starting with a character over the budget is empty; otherwise
the whole split returns the input unchanged only through the second slot. -/
theorem split_at_width_of_lt (c : Char) (t : Str) (w : Nat) (h : w < charWidth c) :
    split_at_width (c :: t) w = ([], c :: t) := by
  simp [split_at_width, h]

/-- A chunk whose first character fits is non-empty. -/
theorem split_at_width_fst_cons (c : Char) (t : Str) (w : Nat) (hc : charWidth c ≤ w) :
    (split_at_width (c :: t) w).1 = c :: (split_at_width t (w - charWidth c)).1 := by
  simp [split_at_width, Nat.not_lt.mpr hc]

/-- Replicated spaces have width equal to their count. -/
theorem strWidth_replicate_space (n : Nat) : strWidth (List.replicate n ' ') = n := by
  induction n with
  | zero => rfl
  | succ n ih =>
    have h1 : charWidth ' ' = 1 := rfl
    simp only [List.replicate_succ, strWidth, List.map_cons, List.sum_cons, h1] at *
    omega

/-- An indent block of spaces counts one column per space. -/
theorem spansWidth_indent (n : Nat) :
    spansWidth [Span.raw (List.replicate n ' ')] = n := by
  simp [spansWidth, Span.raw, strWidth_replicate_space n]

/-- A non-empty indent block ends with a space. -/
theorem endsWithSpace_indent (n : Nat) (hn : 0 < n) :
    endsWithSpace [Span.raw (List.replicate n ' ')] = true := by
  obtain ⟨m, rfl⟩ : ∃ m, n = m + 1 := ⟨n - 1, by omega⟩
  simp only [endsWithSpace, Span.raw, List.getLast?_singleton]
  rw [List.replicate_succ', List.getLast?_concat]
  rfl

/-- The wrap loop, restarted on a freshly indented line (the configuration
the flush branch produces) with at least one iteration of fuel and a first
character within the post-indent budget, pushes a span with exactly the
given style. -/
theorem addTextLoop_pushes_fresh (width listLevel : Nat) (style : Style) (c : Char)
    (t : Str) (cur0 : List Span)
    (hcur : (0 < listLevel ∧ cur0 = [Span.raw (List.replicate (2 * listLevel) ' ')])
      ∨ (listLevel = 0 ∧ cur0 = []))
    (hc : charWidth c ≤ width - 4 * listLevel) (fuel : Nat) (hfuel : 1 ≤ fuel)
    (lines : List Line) :
    ∃ content, Span.mk content style
      ∈ allSpans (addTextLoop width listLevel style fuel (lines, cur0) (c :: t)).1
        ++ (addTextLoop width listLevel style fuel (lines, cur0) (c :: t)).2 := by
  obtain ⟨f, rfl⟩ : ∃ f, fuel = f + 1 := ⟨fuel - 1, by omega⟩
  have hcpos := charWidth_pos c
  rcases hcur with ⟨hll, rfl⟩ | ⟨hl0, rfl⟩
  · simp only [addTextLoop, if_pos hll]
    have hW := spansWidth_indent (2 * listLevel)
    have h0 : ¬ (width - 2 * listLevel
        - spansWidth [Span.raw (List.replicate (2 * listLevel) ' ')] = 0) := by
      rw [hW]
      omega
    simp only [if_neg h0]
    have hle : charWidth c ≤ width - 2 * listLevel
        - spansWidth [Span.raw (List.replicate (2 * listLevel) ' ')] := by
      rw [hW]
      omega
    have hP1 : ¬ ((split_at_width (c :: t) (width - 2 * listLevel
        - spansWidth [Span.raw (List.replicate (2 * listLevel) ' ')])).1 = []) := by
      rw [split_at_width_fst_cons c t _ hle]
      simp
    simp only [if_neg hP1]
    have hews := endsWithSpace_indent (2 * listLevel) (by omega)
    have hcond : ¬ (([Span.raw (List.replicate (2 * listLevel) ' ')] : List Span) ≠ []
        ∧ ¬ endsWithSpace [Span.raw (List.replicate (2 * listLevel) ' ')] = true) := by
      simp [hews]
    simp only [if_neg hcond]
    refine ⟨trimEnd (split_at_width (c :: t) (width - 2 * listLevel
      - spansWidth [Span.raw (List.replicate (2 * listLevel) ' ')])).1, ?_⟩
    have hmem : Span.mk (trimEnd (split_at_width (c :: t) (width - 2 * listLevel
        - spansWidth [Span.raw (List.replicate (2 * listLevel) ' ')])).1) style
        ∈ allSpans lines ++ ([Span.raw (List.replicate (2 * listLevel) ' ')]
          ++ [Span.mk (trimEnd (split_at_width (c :: t) (width - 2 * listLevel
            - spansWidth [Span.raw (List.replicate (2 * listLevel) ' ')])).1) style]) :=
      List.mem_append_right _ (List.mem_append_right _ (List.mem_singleton.mpr rfl))
    by_cases hP2 : (split_at_width (c :: t) (width - 2 * listLevel
        - spansWidth [Span.raw (List.replicate (2 * listLevel) ' ')])).2 = []
    · simp only [if_pos hP2]
      exact hmem
    · simp only [if_neg hP2]
      apply addTextLoop_spans_mono
      apply mem_append_extend
      rw [flush_line_spans]
      exact hmem
  · subst hl0
    have hcw : charWidth c ≤ width := by simpa using hc
    simp only [addTextLoop, Nat.lt_irrefl, if_false, reduceIte, Nat.sub_zero]
    have hzero : spansWidth ([] : List Span) = 0 := rfl
    have h0 : ¬ (width = 0) := by omega
    simp only [hzero, Nat.sub_zero, if_neg h0]
    have hP1 : ¬ ((split_at_width (c :: t) width).1 = []) := by
      rw [split_at_width_fst_cons c t width hcw]
      simp
    simp only [if_neg hP1]
    refine ⟨trimEnd (split_at_width (c :: t) width).1, ?_⟩
    have hcond : ¬ (([] : List Span) ≠ [] ∧ ¬ endsWithSpace [] = true) := by simp
    simp only [if_neg hcond, List.nil_append]
    have hmem : Span.mk (trimEnd (split_at_width (c :: t) width).1) style
        ∈ allSpans lines ++ [Span.mk (trimEnd (split_at_width (c :: t) width).1) style] :=
      List.mem_append_right _ (List.mem_singleton.mpr rfl)
    by_cases hP2 : (split_at_width (c :: t) width).2 = []
    · simp only [if_pos hP2]
      exact hmem
    · simp only [if_neg hP2]
      apply addTextLoop_spans_mono
      simp only [Nat.lt_irrefl, if_false, reduceIte]
      rw [flush_line_spans]
      exact hmem

/-- The wrap loop at any list level, from any current line, with fuel at
least 2 and a first character within the post-indent budget, pushes a span
with exactly the given style. -/
theorem addTextLoop_pushes (width listLevel : Nat) (style : Style) (c : Char) (t : Str)
    (hc : charWidth c ≤ width - 4 * listLevel) (fuel : Nat) (hfuel : 2 ≤ fuel)
    (lines : List Line) (cur : List Span) :
    ∃ content, Span.mk content style
      ∈ allSpans (addTextLoop width listLevel style fuel (lines, cur) (c :: t)).1
        ++ (addTextLoop width listLevel style fuel (lines, cur) (c :: t)).2 := by
  obtain ⟨f, rfl⟩ : ∃ f, fuel = f + 1 := ⟨fuel - 1, by omega⟩
  have hf1 : 1 ≤ f := by omega
  by_cases hll : 0 < listLevel
  · simp only [addTextLoop, if_pos hll]
    by_cases h0 : width - 2 * listLevel - spansWidth cur = 0
    · simp only [if_pos h0]
      rw [flush_line_snd, List.nil_append]
      exact addTextLoop_pushes_fresh width listLevel style c t _
        (Or.inl ⟨hll, rfl⟩) hc f hf1 _
    · simp only [if_neg h0]
      by_cases hP1 : (split_at_width (c :: t)
          (width - 2 * listLevel - spansWidth cur)).1 = []
      · have hlt : width - 2 * listLevel - spansWidth cur < charWidth c := by
          by_contra hge
          rw [split_at_width_fst_cons c t _ (Nat.le_of_not_lt hge)] at hP1
          simp at hP1
        have hsnd : (split_at_width (c :: t)
            (width - 2 * listLevel - spansWidth cur)).2 = c :: t := by
          rw [split_at_width_of_lt c t _ hlt]
        have hP2 : ¬ ((split_at_width (c :: t)
            (width - 2 * listLevel - spansWidth cur)).2 = []) := by
          rw [hsnd]
          simp
        simp only [if_pos hP1, if_neg hP2, hsnd]
        rw [flush_line_snd, List.nil_append]
        exact addTextLoop_pushes_fresh width listLevel style c t _
          (Or.inl ⟨hll, rfl⟩) hc f hf1 _
      · simp only [if_neg hP1]
        refine ⟨trimEnd (split_at_width (c :: t)
          (width - 2 * listLevel - spansWidth cur)).1, ?_⟩
        have hmem : Span.mk (trimEnd (split_at_width (c :: t)
            (width - 2 * listLevel - spansWidth cur)).1) style
            ∈ allSpans lines ++
              ((if cur ≠ [] ∧ ¬ endsWithSpace cur then cur ++ [Span.raw [' ']] else cur)
                ++ [Span.mk (trimEnd (split_at_width (c :: t)
                    (width - 2 * listLevel - spansWidth cur)).1) style]) :=
          List.mem_append_right _
            (List.mem_append_right _ (List.mem_singleton.mpr rfl))
        by_cases hP2 : (split_at_width (c :: t)
            (width - 2 * listLevel - spansWidth cur)).2 = []
        · simp only [if_pos hP2]
          exact hmem
        · simp only [if_neg hP2]
          apply addTextLoop_spans_mono
          apply mem_append_extend
          rw [flush_line_spans]
          exact hmem
  · have hl0 : listLevel = 0 := by omega
    subst hl0
    have hcw : charWidth c ≤ width := by simpa using hc
    simp only [addTextLoop, Nat.lt_irrefl, if_false, reduceIte, Nat.sub_zero]
    by_cases h0 : width - spansWidth cur = 0
    · simp only [if_pos h0]
      rw [flush_line_snd]
      exact addTextLoop_pushes_fresh width 0 style c t []
        (Or.inr ⟨rfl, rfl⟩) hc f hf1 _
    · simp only [if_neg h0]
      by_cases hP1 : (split_at_width (c :: t) (width - spansWidth cur)).1 = []
      · have hlt : width - spansWidth cur < charWidth c := by
          by_contra hge
          rw [split_at_width_fst_cons c t _ (Nat.le_of_not_lt hge)] at hP1
          simp at hP1
        have hsnd : (split_at_width (c :: t) (width - spansWidth cur)).2 = c :: t := by
          rw [split_at_width_of_lt c t _ hlt]
        have hP2 : ¬ ((split_at_width (c :: t) (width - spansWidth cur)).2 = []) := by
          rw [hsnd]
          simp
        simp only [if_pos hP1, if_neg hP2, hsnd]
        rw [flush_line_snd]
        exact addTextLoop_pushes_fresh width 0 style c t []
          (Or.inr ⟨rfl, rfl⟩) hc f hf1 _
      · simp only [if_neg hP1]
        refine ⟨trimEnd (split_at_width (c :: t) (width - spansWidth cur)).1, ?_⟩
        have hmem : Span.mk (trimEnd (split_at_width (c :: t)
            (width - spansWidth cur)).1) style
            ∈ allSpans lines ++
              ((if cur ≠ [] ∧ ¬ endsWithSpace cur then cur ++ [Span.raw [' ']] else cur)
                ++ [Span.mk (trimEnd (split_at_width (c :: t)
                    (width - spansWidth cur)).1) style]) :=
          List.mem_append_right _
            (List.mem_append_right _ (List.mem_singleton.mpr rfl))
        by_cases hP2 : (split_at_width (c :: t) (width - spansWidth cur)).2 = []
        · simp only [if_pos hP2]
          exact hmem
        · simp only [if_neg hP2]
          apply addTextLoop_spans_mono
          simp only [Nat.lt_irrefl, if_false, reduceIte]
          rw [flush_line_spans]
          exact hmem

/-- `add_text_to_line` at any list level, with fuel at least 2 and a first
character within the post-indent budget, pushes a span with exactly the
style it was given. -/
theorem add_text_to_line_pushes (fuel width listLevel : Nat) (style : Style)
    (lines : List Line) (cur : List Span) (c : Char) (t : Str)
    (hc : charWidth c ≤ width - 4 * listLevel) (hfuel : 2 ≤ fuel) :
    ∃ content, Span.mk content style
      ∈ allSpans (add_text_to_line fuel width listLevel style lines cur (c :: t)).1
        ++ (add_text_to_line fuel width listLevel style lines cur (c :: t)).2 := by
  by_cases h : cur = [] ∧ 0 < listLevel
  · simp only [add_text_to_line, if_pos h, if_pos h.2]
    exact addTextLoop_pushes width listLevel style c t hc fuel hfuel lines _
  · simp only [add_text_to_line, if_neg h]
    exact addTextLoop_pushes width listLevel style c t hc fuel hfuel lines cur

/-- One renderer event changes the current style exactly by `styleStep`. -/
theorem processEvent_style (fuel width : Nat) (σ : RState) (e : MdEvent) :
    (processEvent fuel width σ e).current_style = styleStep σ.current_style e := by
  cases e <;> first
    | rfl
    | (simp only [processEvent, styleStep]; split <;> rfl)

/-- One renderer event changes the code-block flag exactly by `inCodeStep`. -/
theorem processEvent_inCode (fuel width : Nat) (σ : RState) (e : MdEvent) :
    (processEvent fuel width σ e).in_code_block = inCodeStep σ.in_code_block e := by
  cases e <;> first
    | rfl
    | (simp only [processEvent, inCodeStep]; split <;> rfl)

/-- One renderer event changes the list level exactly by `levelStep`. -/
theorem processEvent_level (fuel width : Nat) (σ : RState) (e : MdEvent) :
    (processEvent fuel width σ e).list_level = levelStep σ.list_level e := by
  cases e <;> first
    | rfl
    | (simp only [processEvent, levelStep]; split <;> rfl)

/-- The current style after folding events is the pure style fold. -/
theorem foldl_style (fuel width : Nat) : ∀ (es : List MdEvent) (σ : RState),
    (es.foldl (processEvent fuel width) σ).current_style
      = es.foldl styleStep σ.current_style := by
  intro es
  induction es with
  | nil => intro σ; rfl
  | cons e es ih =>
    intro σ
    simp only [List.foldl_cons]
    rw [ih, processEvent_style]

/-- The code-block flag after folding events is the pure flag fold. -/
theorem foldl_inCode (fuel width : Nat) : ∀ (es : List MdEvent) (σ : RState),
    (es.foldl (processEvent fuel width) σ).in_code_block
      = es.foldl inCodeStep σ.in_code_block := by
  intro es
  induction es with
  | nil => intro σ; rfl
  | cons e es ih =>
    intro σ
    simp only [List.foldl_cons]
    rw [ih, processEvent_inCode]

/-- The list level after folding events is the pure level fold. -/
theorem foldl_level (fuel width : Nat) : ∀ (es : List MdEvent) (σ : RState),
    (es.foldl (processEvent fuel width) σ).list_level
      = es.foldl levelStep σ.list_level := by
  intro es
  induction es with
  | nil => intro σ; rfl
  | cons e es ih =>
    intro σ
    simp only [List.foldl_cons]
    rw [ih, processEvent_level]

/-- A text run rendered outside a fenced code block, whose first character
fits the post-indent budget, yields a span styled with exactly the union of
the decorations active at that point, whatever events surround it. -/
theorem text_span_produced (fuel width : Nat) (es1 es2 : List MdEvent) (c : Char)
    (t : Str) (hfuel : 2 ≤ fuel) (hcode : inCodeAt es1 = false)
    (hc : charWidth c ≤ width - 4 * levelAt es1) :
    ∃ content, Span.mk content (styleAt es1)
      ∈ allSpans (render_markdown fuel (es1 ++ MdEvent.text (c :: t) :: es2) width) := by
  have hic : (es1.foldl (processEvent fuel width) RState.init).in_code_block = false := by
    rw [foldl_inCode]
    exact hcode
  have hlv : (es1.foldl (processEvent fuel width) RState.init).list_level
      = levelAt es1 := by
    rw [foldl_level]
    rfl
  have hst : (es1.foldl (processEvent fuel width) RState.init).current_style
      = styleAt es1 := by
    rw [foldl_style]
    rfl
  obtain ⟨content, hmem⟩ := add_text_to_line_pushes fuel width
    (es1.foldl (processEvent fuel width) RState.init).list_level
    (es1.foldl (processEvent fuel width) RState.init).current_style
    (es1.foldl (processEvent fuel width) RState.init).lines
    (es1.foldl (processEvent fuel width) RState.init).current_line
    c t (by rw [hlv]; exact hc) hfuel
  refine ⟨content, ?_⟩
  rw [← hst]
  apply render_spans_of_state
  simp only [List.foldl_append, List.foldl_cons]
  apply foldl_spans_mono
  unfold stateSpans
  simp only [processEvent, hic, Bool.false_eq_true, if_false]
  exact hmem

/-- C10 (amended): every ordinary text run rendered outside a fenced code
block produces a span whose style is exactly the union of the decorations
active at that point — bold while a Strong is open, italic while an
Emphasis is open, both for text nested in both — for arbitrary surrounding
events (lists and code blocks in the prefix included); consequently an
input whose strong region encloses ordinary text contributes a bold span,
an emphasis region an italic span, and text nested in both a span carrying
both simultaneously.  The claim's unrestricted form is false: inline code
is rendered with a fresh fixed style that discards the enclosing
decorations (see the counterexample), so only regions enclosing ordinary
text inherit them.  The side conditions scope the statement to executions
the Rust code completes: `wfItems` rules out item events outside a list
(an underflow in Rust), and `charWidth c ≤ width - 4·level` is the budget
under which the wrap loop — which does not terminate on every input —
pushes the run's first span within two iterations. -/
theorem nested_styles_spec :
    (∀ (fuel width : Nat) (es1 es2 : List MdEvent) (c : Char) (t : Str),
      2 ≤ fuel → inCodeAt es1 = false → wfItems es1 = true →
      charWidth c ≤ width - 4 * levelAt es1 →
      ∃ content, Span.mk content (styleAt es1)
        ∈ allSpans (render_markdown fuel (es1 ++ MdEvent.text (c :: t) :: es2) width)) ∧
    (∀ (fuel width : Nat) (es1 es2 : List MdEvent) (c : Char) (t : Str),
      2 ≤ fuel → inCodeAt es1 = false → wfItems es1 = true →
      charWidth c ≤ width - 4 * levelAt es1 → (styleAt es1).bold = true →
      ∃ sp ∈ allSpans (render_markdown fuel (es1 ++ MdEvent.text (c :: t) :: es2) width),
        sp.style.bold = true) ∧
    (∀ (fuel width : Nat) (es1 es2 : List MdEvent) (c : Char) (t : Str),
      2 ≤ fuel → inCodeAt es1 = false → wfItems es1 = true →
      charWidth c ≤ width - 4 * levelAt es1 → (styleAt es1).italic = true →
      ∃ sp ∈ allSpans (render_markdown fuel (es1 ++ MdEvent.text (c :: t) :: es2) width),
        sp.style.italic = true) ∧
    (∀ (fuel width : Nat) (es1 es2 : List MdEvent) (c : Char) (t : Str),
      2 ≤ fuel → inCodeAt es1 = false → wfItems es1 = true →
      charWidth c ≤ width - 4 * levelAt es1 →
      (styleAt es1).bold = true → (styleAt es1).italic = true →
      ∃ sp ∈ allSpans (render_markdown fuel (es1 ++ MdEvent.text (c :: t) :: es2) width),
        sp.style.bold = true ∧ sp.style.italic = true) := by
  refine ⟨?_, ?_, ?_, ?_⟩
  · intro fuel width es1 es2 c t hf hcode _ hc
    exact text_span_produced fuel width es1 es2 c t hf hcode hc
  · intro fuel width es1 es2 c t hf hcode _ hc hb
    obtain ⟨content, hmem⟩ := text_span_produced fuel width es1 es2 c t hf hcode hc
    exact ⟨_, hmem, hb⟩
  · intro fuel width es1 es2 c t hf hcode _ hc hi
    obtain ⟨content, hmem⟩ := text_span_produced fuel width es1 es2 c t hf hcode hc
    exact ⟨_, hmem, hi⟩
  · intro fuel width es1 es2 c t hf hcode _ hc hb hi
    obtain ⟨content, hmem⟩ := text_span_produced fuel width es1 es2 c t hf hcode hc
    exact ⟨_, hmem, hb, hi⟩

/-- Witness for C10 at `**bold *it***`: the nested text yields a span
carrying bold and italic together. -/
theorem nested_styles_spec_witness :
    ∃ sp ∈ allSpans (render_markdown 32 ([MdEvent.paraStart, MdEvent.strongStart,
        MdEvent.text "bold ".toList, MdEvent.emphStart]
        ++ MdEvent.text ('i' :: "t".toList) :: [MdEvent.emphEnd, MdEvent.strongEnd,
          MdEvent.paraEnd]) 20),
      sp.style.bold = true ∧ sp.style.italic = true :=
  nested_styles_spec.2.2.2 32 20
    [MdEvent.paraStart, MdEvent.strongStart, MdEvent.text "bold ".toList,
      MdEvent.emphStart]
    [MdEvent.emphEnd, MdEvent.strongEnd, MdEvent.paraEnd] 'i' "t".toList
    (by omega) (by decide) (by decide) (by decide) (by decide) (by decide)

/-- C10 counterexample: the markdown `` **`x`** *y* `` contains inline
strong and inline emphasis, yet its rendering carries no bold span at all —
the inline-code arm of `render_markdown` builds a fresh fixed style
(yellow, italic) instead of adding to the enclosing Strong style, a blind
overwrite.  Italic spans do appear, so the claim's bold conjunct is the
one that fails. -/
theorem nested_styles_counterexample :
    MdEvent.strongStart ∈ c10CexEvents ∧ MdEvent.emphStart ∈ c10CexEvents ∧
    (allSpans (render_markdown 32 c10CexEvents 20)).all
      (fun sp => !sp.style.bold) = true ∧
    (allSpans (render_markdown 32 c10CexEvents 20)).any
      (fun sp => sp.style.italic) = true := by
  decide

end Chatti
